import Mathlib

/-!
Verification of the Goose fine-tuning script (`scripts/goose/fine-tune.py`).

The script's own logic is: a JSONL dataset loader (`load_training_data`), a
Phi-3 instruction-template renderer (`format_for_training`), an orchestration
sequence (`fine_tune`), a non-fatal GGUF export wrapper (`export_gguf`), and an
inference smoke test (`test_inference`).  All machine-learning collaborators
(model loading, LoRA injection, the trainer, the generator, the quantized
exporter) are opaque; they are represented by explicit outcome parameters.

Python's `json` standard-library module (`json.dumps` with compact separators
and default `ensure_ascii=True`, and `json.loads`) is modelled by an explicit
serializer `serJson` and parser `parseJson` over a `Json` value type.  Model
scope notes: JSON numbers are modelled as integers (the training data uses only
integers; the parser reports `none` on fraction/exponent forms rather than
producing a float), lone surrogate escapes are rejected rather than producing
unpaired surrogates, and Python dicts are modelled as key/value lists in
insertion order with last-binding-wins lookup, which is exact for the
duplicate-free dicts `json.loads` produces.
-/

set_option maxRecDepth 40000

/-- JSON values as produced by Python's `json.loads` and consumed by
`json.dumps`: the structured records of the training data. -/
inductive Json where
  | null
  | bool (flag : Bool)
  | num (value : Int)
  | str (text : String)
  | arr (items : List Json)
  | obj (fields : List (String × Json))

/-- Decimal digit character, as used by Python's integer formatting. -/
def digitChar10 (n : Nat) : Char := Char.ofNat (48 + n)

/-- Digits of a positive integer, most significant first; `fuel` bounds the
recursion and any `fuel ≥ n` is exact. -/
def natDigitsFuel : Nat → Nat → List Char
  | 0, _ => []
  | _ + 1, 0 => []
  | fuel + 1, n + 1 => natDigitsFuel fuel ((n + 1) / 10) ++ [digitChar10 ((n + 1) % 10)]

/-- Decimal digits of a natural number (`repr` of a Python non-negative int). -/
def natDigits (n : Nat) : List Char := if n = 0 then ['0'] else natDigitsFuel n n

/-- Decimal rendering of a Python int, with a leading minus sign if negative. -/
def intDigits (n : Int) : List Char :=
  if n < 0 then '-' :: natDigits n.natAbs else natDigits n.natAbs

/-- Lowercase hexadecimal digit, as emitted inside `\u` escapes by
`json.dumps`. -/
def hexDigitL (n : Nat) : Char :=
  if n < 10 then Char.ofNat (48 + n) else Char.ofNat (87 + n)

/-- Four-digit lowercase hex rendering of `n < 0x10000`. -/
def hex4 (n : Nat) : List Char :=
  [hexDigitL (n / 4096 % 16), hexDigitL (n / 256 % 16), hexDigitL (n / 16 % 16),
    hexDigitL (n % 16)]

/-- Escape of one character inside a JSON string literal, following
`json.dumps` with its default `ensure_ascii=True`: two-character short escapes
for quote, backslash and the common control characters; printable ASCII
(0x20–0x7e) kept as is; everything else `\uXXXX`, with a surrogate pair for
code points above 0xFFFF. -/
def escapeChar (c : Char) : List Char :=
  if c = '"' then ['\\', '"']
  else if c = '\\' then ['\\', '\\']
  else if c = '\x08' then ['\\', 'b']
  else if c = '\x09' then ['\\', 't']
  else if c = '\x0a' then ['\\', 'n']
  else if c = '\x0c' then ['\\', 'f']
  else if c = '\x0d' then ['\\', 'r']
  else if 32 ≤ c.toNat ∧ c.toNat ≤ 126 then [c]
  else if c.toNat < 65536 then '\\' :: 'u' :: hex4 c.toNat
  else
    ('\\' :: 'u' :: hex4 (55296 + (c.toNat - 65536) / 1024)) ++
      ('\\' :: 'u' :: hex4 (56320 + (c.toNat - 65536) % 1024))

/-- Escape of a whole string body. -/
def escapeList : List Char → List Char
  | [] => []
  | c :: rest => escapeChar c ++ escapeList rest

/-- Serialization of a JSON string, quotes included. -/
def serStr (s : String) : List Char := '"' :: escapeList s.data ++ ['"']

mutual

/-- Serialization of a JSON value exactly as
`json.dumps(value, separators=(",", ":"))` renders it: compact separators, no
whitespace, keys in insertion order (`sort_keys` is left at its default). -/
def serJson : Json → List Char
  | .num n => intDigits n
  | .str s => serStr s
  | .bool false => ['f', 'a', 'l', 's', 'e']
  | .bool true => ['t', 'r', 'u', 'e']
  | .null => ['n', 'u', 'l', 'l']
  | .arr (x :: xs) => '[' :: (serJson x ++ serTail xs)
  | .arr [] => ['[', ']']
  | .obj (m :: ms) => '\x7b' :: (serMemb m ++ serMTail ms)
  | .obj [] => ['\x7b', '\x7d']

/-- Serialization of the remaining array elements, each preceded by a comma,
with the closing bracket. -/
def serTail : List Json → List Char
  | [] => [']']
  | x :: xs => ',' :: (serJson x ++ serTail xs)

/-- Serialization of one object member `"key":value`. -/
def serMemb : String × Json → List Char
  | (k, v) => serStr k ++ ':' :: serJson v

/-- Serialization of the remaining object members, each preceded by a comma,
with the closing brace. -/
def serMTail : List (String × Json) → List Char
  | [] => ['\x7d']
  | m :: ms => ',' :: (serMemb m ++ serMTail ms)

end

/-- The serialized output string handed to the template (Python
`json.dumps(example["output"], separators=(",", ":"))`). -/
def serString (o : Json) : String := String.mk (serJson o)

/-- JSON whitespace, as skipped by `json.loads` between tokens. -/
def isJsonWs (c : Char) : Bool := c = ' ' || c = '\x09' || c = '\x0a' || c = '\x0d'

/-- Skip leading JSON whitespace. -/
def skipWs : List Char → List Char
  | [] => []
  | c :: rest => if isJsonWs c then skipWs rest else c :: rest

/-- ASCII decimal digit test. -/
def isDigit10 (c : Char) : Bool := 48 ≤ c.toNat && c.toNat ≤ 57

/-- Head of the input is a decimal digit. -/
def headDigit : List Char → Bool
  | [] => false
  | c :: _ => isDigit10 c

/-- Consume a maximal run of decimal digits, accumulating their value. -/
def parseDigits (acc : Nat) : List Char → Nat × List Char
  | [] => (acc, [])
  | c :: rest =>
    if isDigit10 c then parseDigits (acc * 10 + (c.toNat - 48)) rest else (acc, c :: rest)

/-- Value of a digit run read most-significant-first, continuing from `acc`. -/
def digitsVal (acc : Nat) (l : List Char) : Nat :=
  l.foldl (fun a c => a * 10 + (c.toNat - 48)) acc

/-- Integer part of a JSON number: `0`, or a nonzero digit followed by digits
(JSON forbids redundant leading zeros). -/
def parseIntPart : List Char → Option (Nat × List Char)
  | [] => none
  | c :: rest =>
    if c = '0' then some (0, rest)
    else if isDigit10 c then some (parseDigits (c.toNat - 48) rest)
    else none

/-- The remaining input would extend the number just parsed (more digits after
a leading zero, or a fraction/exponent part, which this integer model does not
represent). -/
def floatStart : List Char → Bool
  | [] => false
  | c :: _ => isDigit10 c || c = '.' || c = 'e' || c = 'E'

/-- Value of one hexadecimal digit, either case. -/
def hexVal (c : Char) : Option Nat :=
  if 48 ≤ c.toNat ∧ c.toNat ≤ 57 then some (c.toNat - 48)
  else if 97 ≤ c.toNat ∧ c.toNat ≤ 102 then some (c.toNat - 87)
  else if 65 ≤ c.toNat ∧ c.toNat ≤ 70 then some (c.toNat - 55)
  else none

/-- Value of a four-hex-digit group from a `\uXXXX` escape. -/
def hexVal4 (a b c d : Char) : Option Nat :=
  match hexVal a, hexVal b, hexVal c, hexVal d with
  | some x, some y, some z, some w => some (x * 4096 + y * 256 + z * 16 + w)
  | _, _, _, _ => none

/-- Decoding of a single-character JSON escape (`\uXXXX` handled separately). -/
def unescapeChar (c : Char) : Option Char :=
  if c = '"' then some '"'
  else if c = '\\' then some '\\'
  else if c = '/' then some '/'
  else if c = 'b' then some '\x08'
  else if c = 't' then some '\x09'
  else if c = 'n' then some '\x0a'
  else if c = 'f' then some '\x0c'
  else if c = 'r' then some '\x0d'
  else none

/-- First pass of scanning a JSON string literal body after the opening
quote, as `json.loads` does in its default strict mode: raw control characters
are rejected, escapes are decoded, and each scanned item is recorded as a
UTF-16 code unit (`\uXXXX` escapes may denote surrogate halves). -/
def scanUnits : List Char → Option (List Nat × List Char)
  | [] => none
  | c :: rest =>
    if c = '"' then some ([], rest)
    else if c = '\\' then
      match rest with
      | [] => none
      | e :: rest2 =>
        if e = 'u' then
          match rest2 with
          | h1 :: h2 :: h3 :: h4 :: rest3 =>
            match hexVal4 h1 h2 h3 h4 with
            | none => none
            | some hv =>
              match scanUnits rest3 with
              | some (us, r) => some (hv :: us, r)
              | none => none
          | _ => none
        else
          match unescapeChar e with
          | none => none
          | some d =>
            match scanUnits rest2 with
            | some (us, r) => some (d.toNat :: us, r)
            | none => none
    else if c.toNat < 32 then none
    else
      match scanUnits rest with
      | some (us, r) => some (c.toNat :: us, r)
      | none => none

/-- Second pass: combine a high-surrogate unit with the following low
surrogate into one code point, as `json.loads` does for `\uXXXX` pairs.  A
lone surrogate (which Python would keep as an unpaired surrogate in its
`str`) has no counterpart among Lean characters and is rejected. -/
def unitsToChars : List Nat → Option (List Char)
  | [] => some []
  | u :: us =>
    if 55296 ≤ u ∧ u ≤ 56319 then
      match us with
      | l :: us2 =>
        if 56320 ≤ l ∧ l ≤ 57343 then
          match unitsToChars us2 with
          | some cs => some (Char.ofNat (65536 + (u - 55296) * 1024 + (l - 56320)) :: cs)
          | none => none
        else none
      | [] => none
    else if 56320 ≤ u ∧ u ≤ 57343 then none
    else
      match unitsToChars us with
      | some cs => some (Char.ofNat u :: cs)
      | none => none

/-- Body of a JSON string literal after the opening quote: scan units, then
combine surrogate pairs. -/
def parseStringBody (l : List Char) : Option (List Char × List Char) :=
  match scanUnits l with
  | none => none
  | some (us, r) =>
    match unitsToChars us with
    | some cs => some (cs, r)
    | none => none

/-- The UTF-16 code units of one character, as its serialized escape denotes
them. -/
def charUnits (c : Char) : List Nat :=
  if c.toNat < 65536 then [c.toNat]
  else [55296 + (c.toNat - 65536) / 1024, 56320 + (c.toNat - 65536) % 1024]

/-- The UTF-16 code units of a string. -/
def unitsList : List Char → List Nat
  | [] => []
  | c :: s => charUnits c ++ unitsList s

/-- `needle` occurs as a contiguous prefix of `hay` (Boolean, by direct
comparison). -/
def prefixCheck : List Char → List Char → Bool
  | a :: as, b :: bs => a == b && prefixCheck as bs
  | [], _ => true
  | _ :: _, [] => false

/-- Expect a fixed literal continuation (the tails of `null`, `true`,
`false`), returning the remainder. -/
def expectLit (lit : List Char) (s : List Char) : Option (List Char) :=
  if prefixCheck lit s then some (s.drop lit.length) else none

/-- Array elements after the first non-`]` token, with whitespace skipped
around commas as `json.loads` does; `pv` parses one value. -/
def parseElems (pv : List Char → Option (Json × List Char)) :
    Nat → List Char → Option (List Json × List Char)
  | 0, _ => none
  | fuel + 1, s =>
    match pv s with
    | none => none
    | some (v, r) =>
      match skipWs r with
      | ',' :: r2 =>
        match parseElems pv fuel (skipWs r2) with
        | some (vs, r3) => some (v :: vs, r3)
        | none => none
      | ']' :: r2 => some ([v], r2)
      | _ => none

/-- Object members after the first non-`\x7d` token, with whitespace skipped
around colons and commas as `json.loads` does; `pv` parses one value. -/
def parseMembers (pv : List Char → Option (Json × List Char)) :
    Nat → List Char → Option (List (String × Json) × List Char)
  | 0, _ => none
  | fuel + 1, s =>
    match s with
    | '"' :: r0 =>
      match parseStringBody r0 with
      | none => none
      | some (kcs, r1) =>
        match skipWs r1 with
        | ':' :: r2 =>
          match pv (skipWs r2) with
          | none => none
          | some (v, r3) =>
            match skipWs r3 with
            | ',' :: r4 =>
              match parseMembers pv fuel (skipWs r4) with
              | some (ms, r5) => some ((String.mk kcs, v) :: ms, r5)
              | none => none
            | '\x7d' :: r4 => some ([(String.mk kcs, v)], r4)
            | _ => none
        | _ => none
    | _ => none

/-- The body of an array after the opening bracket and whitespace: an
immediate `]` is the empty array, anything else is a comma-separated element
list parsed by `pe`. -/
def parseArrayBody (pe : Nat → List Char → Option (List Json × List Char))
    (fuel : Nat) (r : List Char) : Option (Json × List Char) :=
  match r with
  | [] => none
  | d :: r2 =>
    if d = ']' then some (.arr [], r2)
    else (pe fuel (d :: r2)).map (fun p => (.arr p.1, p.2))

/-- The body of an object after the opening brace and whitespace: an immediate
closing brace is the empty object, anything else is a comma-separated member
list parsed by `pm`. -/
def parseObjBody (pm : Nat → List Char → Option (List (String × Json) × List Char))
    (fuel : Nat) (r : List Char) : Option (Json × List Char) :=
  match r with
  | [] => none
  | d :: r2 =>
    if d = '\x7d' then some (.obj [], r2)
    else (pm fuel (d :: r2)).map (fun p => (.obj p.1, p.2))

/-- A number after a leading minus sign. -/
def parseNeg (r : List Char) : Option (Json × List Char) :=
  match r with
  | [] => none
  | d :: r2 =>
    if isDigit10 d then
      (parseIntPart (d :: r2)).bind (fun p =>
        if floatStart p.2 then none else some (.num (-(p.1 : Int)), p.2))
    else none

/-- One JSON value, as scanned by `json.loads`; `fuel` bounds nesting and is
instantiated generously at the top level. -/
def parseValue : Nat → List Char → Option (Json × List Char)
  | 0, _ => none
  | fuel + 1, s =>
    match s with
    | [] => none
    | c :: rest =>
      if c = 'n' then (expectLit ['u', 'l', 'l'] rest).map (fun r => (.null, r))
      else if c = 't' then (expectLit ['r', 'u', 'e'] rest).map (fun r => (.bool true, r))
      else if c = 'f' then (expectLit ['a', 'l', 's', 'e'] rest).map (fun r => (.bool false, r))
      else if c = '"' then (parseStringBody rest).map (fun p => (.str (String.mk p.1), p.2))
      else if c = '[' then parseArrayBody (parseElems (parseValue fuel)) fuel (skipWs rest)
      else if c = '\x7b' then parseObjBody (parseMembers (parseValue fuel)) fuel (skipWs rest)
      else if c = '-' then parseNeg rest
      else if isDigit10 c then
        (parseIntPart (c :: rest)).bind (fun p =>
          if floatStart p.2 then none else some (.num (p.1 : Int), p.2))
      else none

/-- Model of `json.loads` on a whole document: leading whitespace is skipped,
one value is scanned, and anything but trailing whitespace after it is an
error ("Extra data").  `2 * length + 2` fuel is ample for any input the fuel
is ever consumed on. -/
def parseJson (s : String) : Option Json :=
  match parseValue (2 * s.length + 2) (skipWs s.data) with
  | some (v, rest) => if rest.all isJsonWs then some v else none
  | none => none

/-- `needle` occurs contiguously somewhere in `hay`: Python's `in` on
strings. -/
def hasInfix (m : List Char) : List Char → Bool
  | [] => m.isEmpty
  | c :: rest => prefixCheck m (c :: rest) || hasInfix m rest

/-- `needle` occurs as a contiguous suffix of `hay`. -/
def suffixCheck (m l : List Char) : Bool := prefixCheck m.reverse l.reverse

/-- The text after the last occurrence of `m`, or `none` when `m` does not
occur: the `[-1]` piece of Python's `text.split(m)`. -/
def afterLast (m : List Char) : List Char → Option (List Char)
  | [] => none
  | c :: rest =>
    match afterLast m rest with
    | some r => some r
    | none => if prefixCheck m (c :: rest) then some ((c :: rest).drop m.length) else none

/-- The text strictly before the last occurrence of `m`, or `none` when `m`
does not occur. -/
def beforeLast (m : List Char) : List Char → Option (List Char)
  | [] => none
  | c :: rest =>
    match beforeLast m rest with
    | some r => some (c :: r)
    | none => if prefixCheck m (c :: rest) then some [] else none

/-- Python ASCII whitespace as stripped by `str.strip()` (the training data is
ASCII; the rarely-relevant additional Unicode spaces are outside this
model). -/
def isPyWs (c : Char) : Bool :=
  c = ' ' || c = '\x09' || c = '\x0a' || c = '\x0d' || c = '\x0b' || c = '\x0c'

/-- Python `str.strip()`: drop whitespace from both ends. -/
def pyStrip (l : List Char) : List Char :=
  ((l.dropWhile isPyWs).reverse.dropWhile isPyWs).reverse

/-- The Goose system prompt string (fine-tune.py lines 61–73), verbatim. -/
def SYSTEM_PROMPT : String := "You are Goose, an AI that generates HiveLab tools from natural language descriptions.\n\nHiveLab tools are composed of visual elements that can be connected to create interactive experiences for campus communities.\n\nOUTPUT FORMAT:\nYou must output valid JSON with this exact structure:\n\x7b\"elements\":[\x7b\"type\":\"<element-type>\",\"instanceId\":\"<unique-id>\",\"config\":\x7b...\x7d,\"position\":\x7b\"x\":<number>,\"y\":<number>\x7d,\"size\":\x7b\"width\":<number>,\"height\":<number>\x7d\x7d],\"connections\":[\x7b\"from\":\x7b\"instanceId\":\"<source-id>\",\"port\":\"<output-port>\"\x7d,\"to\":\x7b\"instanceId\":\"<target-id>\",\"port\":\"<input-port>\"\x7d\x7d],\"name\":\"<tool-name>\",\"description\":\"<brief-description>\",\"layout\":\"grid\"\x7d\n\nRULES:\n1. Always output valid JSON only - no explanations or markdown\n2. Use only valid element types: poll-element, rsvp-button, countdown-timer, leaderboard, chart-display, result-list, form-builder, counter, timer, search-input, filter-selector, date-picker, availability-heatmap, member-list, space-events, announcement\n3. Required configs: poll-element needs question+options, rsvp-button needs eventName, countdown-timer needs targetDate, chart-display needs chartType\n4. Keep tools simple - 1-4 elements maximum"

/-- The rendered Phi-3 training transcript (the f-string of
`format_for_training`, fine-tune.py lines 105–113), for a prompt string and a
structured output value. -/
def trainingRender (prompt : String) (output : Json) : String :=
  "<|system|>\n" ++ SYSTEM_PROMPT ++ "\n<|end|>\n<|user|>\n" ++ prompt ++
    "\n<|end|>\n<|assistant|>\n" ++ serString output ++ "\n<|end|>"

/-- The rendered inference prompt (the f-string inside `test_inference`,
fine-tune.py lines 272–279): the same transcript with the assistant segment
left open after the role marker and its newline. -/
def inference_prompt (prompt : String) : String :=
  "<|system|>\n" ++ SYSTEM_PROMPT ++ "\n<|end|>\n<|user|>\n" ++ prompt ++
    "\n<|end|>\n<|assistant|>\n"

/-- The assistant segment of a rendered transcript: the text strictly between
the last assistant role marker (the extraction point used by
`test_inference`, fine-tune.py lines 292–293) and the final end-of-turn
marker. -/
def extractAssistantSegment (t : String) : Option String :=
  match afterLast "<|assistant|>".data t.data with
  | none => none
  | some tail =>
    match beforeLast "<|end|>".data tail with
    | none => none
    | some seg => some (String.mk seg)

/-- Python-level failures of dictionary access inside `format_for_training`. -/
inductive PyErr where
  | keyError (key : String)
  | typeError (msg : String)
deriving DecidableEq

/-- Lookup in a Python dict modelled as a binding list: the last binding for a
key wins, mirroring dict construction. -/
def lookupL : List (String × Json) → String → Option Json
  | [], _ => none
  | (k, v) :: rest, key =>
    match lookupL rest key with
    | some r => some r
    | none => if k == key then some v else none

/-- Model of `format_for_training` (fine-tune.py lines 99–113): read
`example["prompt"]` and `example["output"]` (a missing key is a `KeyError`,
a non-dict example a `TypeError`), serialize the output compactly, and render
the three-segment Phi-3 template.  Python would stringify a non-string prompt
via `str()`; the training records' prompts are JSON strings and only that case
is modelled, with a `typeError` marker otherwise. -/
def format_for_training (ex : Json) : Except PyErr String :=
  match ex with
  | .obj ms =>
    match lookupL ms "prompt" with
    | none => .error (.keyError "prompt")
    | some pv =>
      match lookupL ms "output" with
      | none => .error (.keyError "output")
      | some ov =>
        match pv with
        | .str p => .ok (trainingRender p ov)
        | _ => .error (.typeError "prompt is not a string")
  | _ => .error (.typeError "example is not a dict")

/-- The fatal error for a training-data line that fails to parse, naming the
offending file and 1-based line number (spec section 4.3: the source lets the
parser's exception abort the load; the spec directs that it carry the file
and line). -/
structure DataFormatError where
  file : String
  line : Nat
deriving DecidableEq

/-- Parse the lines of one included file, numbering lines from `n`: blank
lines (empty after stripping) are skipped, every other line must parse as one
JSON record, and the first failure aborts with a `DataFormatError`. -/
def loadLines (name : String) : Nat → List String → Except DataFormatError (List Json)
  | _, [] => .ok []
  | n, line :: rest =>
    if (pyStrip line.data).isEmpty then loadLines name (n + 1) rest
    else
      match parseJson line with
      | some j =>
        match loadLines name (n + 1) rest with
        | .ok more => .ok (j :: more)
        | .error e => .error e
      | none => .error ⟨name, n⟩

/-- Process the discovered files in listing order: a file whose name contains
the validation marker is skipped entirely; the records of the others are
concatenated, and any line failure aborts the whole load. -/
def loadFiles : List (String × List String) → Except DataFormatError (List Json)
  | [] => .ok []
  | (name, lines) :: rest =>
    if hasInfix "validation".data name.data then loadFiles rest
    else
      match loadLines name 1 lines with
      | .error e => .error e
      | .ok exs =>
        match loadFiles rest with
        | .ok more => .ok (exs ++ more)
        | .error e => .error e

/-- A directory entry matches the `*.jsonl` glob: the `.jsonl` suffix, and not
a hidden file (glob's `*` does not match a leading dot). -/
def jsonlGlobMatch (name : String) : Bool :=
  suffixCheck ".jsonl".data name.data &&
    (match name.data with
     | '.' :: _ => false
     | _ => true)

/-- Model of `load_training_data` (fine-tune.py lines 80–96) over an explicit
directory listing (file name paired with its lines, in discovery order):
glob for `*.jsonl`, skip validation files, parse every non-blank line. -/
def load_training_data (listing : List (String × List String)) :
    Except DataFormatError (List Json) :=
  loadFiles (listing.filter fun f => jsonlGlobMatch f.1)

/-- Observable events of one `fine_tune` run, in order. -/
inductive Event where
  | loadedExamples (n : Nat)
  | trainerRun (datasetSize : Nat)
  | modelSaved
  | exportSaved
  | exportFailedLogged (msg : String)
  | completionReported
deriving DecidableEq

/-- A fatal error of a `fine_tune` run (uncaught Python exception). -/
inductive RunError where
  | dataFormat (e : DataFormatError)
  | format (e : PyErr)
  | training (msg : String)
deriving DecidableEq

/-- Model of `export_gguf` (fine-tune.py lines 221–234): the quantized-export
collaborator's outcome is wrapped in try/except, so the result is always an
ordinary logged event — success, or a failure log embedding the underlying
error message — never a propagated exception. -/
def export_gguf (exporter : Except String Unit) : Event :=
  match exporter with
  | .ok _ => .exportSaved
  | .error e => .exportFailedLogged ("GGUF export failed: " ++ e)

/-- Model of `fine_tune` (fine-tune.py lines 120–218) after the import guard:
load the dataset, format every example, run the opaque trainer, save the
model, optionally export, report completion.  The trainer and exporter are
opaque collaborators represented by their outcomes; loader and formatter
failures and trainer failures propagate as fatal, the export outcome never
does. -/
def fine_tune (listing : List (String × List String)) (exportFlag : Bool)
    (trainer : Except String Unit) (exporter : Except String Unit) :
    List Event × Option RunError :=
  match load_training_data listing with
  | .error e => ([], some (.dataFormat e))
  | .ok examples =>
    match examples.mapM format_for_training with
    | .error e => ([.loadedExamples examples.length], some (.format e))
    | .ok formatted =>
      match trainer with
      | .error e =>
        ([.loadedExamples examples.length, .trainerRun formatted.length],
          some (.training e))
      | .ok _ =>
        ([.loadedExamples examples.length, .trainerRun formatted.length, .modelSaved] ++
            (if exportFlag then [export_gguf exporter] else []) ++ [.completionReported],
          none)

/-- Extraction of the assistant continuation from a decoded generation
(fine-tune.py lines 290–293): when the assistant role marker occurs, take the
text after its last occurrence and strip whitespace; otherwise keep the
decoded text unchanged. -/
def extractResponse (decoded : String) : String :=
  if hasInfix "<|assistant|>".data decoded.data then
    String.mk (pyStrip ((afterLast "<|assistant|>".data decoded.data).getD decoded.data))
  else decoded

/-- Python `parsed.get(key, default)`: defined on dicts only (anything else is
an `AttributeError`). -/
def dictGet (j : Json) (key : String) (dflt : Json) : Except String Json :=
  match j with
  | .obj ms => .ok ((lookupL ms key).getD dflt)
  | _ => .error "AttributeError: get"

/-- Python `len()` on a JSON value: defined on arrays, strings and dicts. -/
def pyLen : Json → Except String Nat
  | .arr xs => .ok xs.length
  | .str s => .ok s.length
  | .obj ms => .ok ms.length
  | _ => .error "TypeError: len"

/-- Per-prompt outcome reported by the smoke test: parse failure, or valid
JSON with the count of entries under the top-level `elements` field. -/
inductive PromptReport where
  | invalidJson
  | validJson (elementCount : Nat)
deriving DecidableEq

/-- The smoke test's handling of one decoded generation (fine-tune.py lines
290–302): extract the assistant continuation, attempt `json.loads`, and
report invalid JSON (the caught `JSONDecodeError` branch) or valid JSON with
`len(parsed.get("elements", []))`.  The uncaught Python errors of
`parsed.get`/`len` on unexpectedly shaped values surface as `Except`
errors. -/
def reportFor (decoded : String) : Except String PromptReport :=
  match parseJson (extractResponse decoded) with
  | none => .ok .invalidJson
  | some v =>
    match dictGet v "elements" (.arr []) with
    | .error e => .error e
    | .ok elems =>
      match pyLen elems with
      | .error e => .error e
      | .ok n => .ok (.validJson n)

/-- Model of the reporting loop of `test_inference` (fine-tune.py lines
268–302) over the decoded generations (generation itself is an opaque
collaborator): each prompt is reported in turn; an uncaught error would abort
the remainder, a JSON parse failure would not. -/
def test_inference (decodedResponses : List String) : Except String (List PromptReport) :=
  decodedResponses.mapM reportFor

mutual

/-- Parser fuel budget sufficient for a serialized value. -/
def fsize : Json → Nat
  | .arr xs => 1 + fsizeL xs
  | .obj ms => 1 + fsizeM ms
  | .str _ => 1
  | .num _ => 1
  | .bool _ => 1
  | .null => 1

/-- Fuel budget for an array's elements. -/
def fsizeL : List Json → Nat
  | x :: xs => 1 + fsize x + fsizeL xs
  | [] => 1

/-- Fuel budget for an object's members. -/
def fsizeM : List (String × Json) → Nat
  | (_, v) :: ms => 1 + fsize v + fsizeM ms
  | [] => 1

end

/-- The single example line of the spec's end-to-end scenario (spec section
8), verbatim. -/
def c9Line : String := "\x7b\"prompt\":\"create a poll about lunch\",\"output\":\x7b\"elements\":[\x7b\"type\":\"poll-element\",\"instanceId\":\"p1\",\"config\":\x7b\"question\":\"Lunch?\",\"options\":[\"Pizza\",\"Sushi\"]\x7d,\"position\":\x7b\"x\":0,\"y\":0\x7d,\"size\":\x7b\"width\":4,\"height\":2\x7d\x7d],\"connections\":[],\"name\":\"Lunch Poll\",\"description\":\"A poll\",\"layout\":\"grid\"\x7d\x7d"

/-- The `output` value of the spec's end-to-end example line. -/
def c9Output : Json :=
  Json.obj [("elements", Json.arr [Json.obj [("type", Json.str "poll-element"),
    ("instanceId", Json.str "p1"),
    ("config", Json.obj [("question", Json.str "Lunch?"),
      ("options", Json.arr [Json.str "Pizza", Json.str "Sushi"])]),
    ("position", Json.obj [("x", Json.num 0), ("y", Json.num 0)]),
    ("size", Json.obj [("width", Json.num 4), ("height", Json.num 2)])]]),
    ("connections", Json.arr []), ("name", Json.str "Lunch Poll"),
    ("description", Json.str "A poll"), ("layout", Json.str "grid")]

theorem prefixCheck_iff (m l : List Char) : prefixCheck m l = true ↔ m <+: l := by
  induction m generalizing l with
  | nil => simp [prefixCheck]
  | cons a as ih =>
    cases l with
    | nil => simp [prefixCheck]
    | cons b bs =>
      simp only [prefixCheck, Bool.and_eq_true, beq_iff_eq, ih, List.cons_prefix_cons]

theorem prefixCheck_self_append (l r : List Char) : prefixCheck l (l ++ r) = true := by
  induction l with
  | nil => rfl
  | cons a as ih => simp [prefixCheck, ih]

theorem hasInfix_iff (m l : List Char) : hasInfix m l = true ↔ m <:+: l := by
  induction l with
  | nil => simp [hasInfix, List.isEmpty_iff]
  | cons c rest ih => simp [hasInfix, Bool.or_eq_true, prefixCheck_iff, ih, List.infix_cons_iff]

theorem prefix_through_sep {m A B : List Char} {x : Char} (hx : x ∉ m)
    (h : m <+: A ++ x :: B) : m <+: A := by
  by_cases hlen : m.length ≤ A.length
  · exact List.prefix_of_prefix_length_le h (List.prefix_append A (x :: B)) hlen
  · exfalso
    push_neg at hlen
    have hAm : A <+: m :=
      List.prefix_of_prefix_length_le (List.prefix_append A (x :: B)) h (le_of_lt hlen)
    obtain ⟨u, hu⟩ := hAm
    obtain ⟨t, ht⟩ := h
    rw [← hu, List.append_assoc] at ht
    have hut : u ++ t = x :: B := List.append_cancel_left ht
    cases u with
    | nil =>
      rw [← hu] at hlen
      simp at hlen
    | cons y u2 =>
      have hy : y = x := by
        have := congrArg (fun l => l.head?) hut
        simpa using this
      apply hx
      rw [← hu, hy]
      exact List.mem_append_right A (List.mem_cons_self x u2)

theorem infix_through_sep {m A B : List Char} {x : Char} (hx : x ∉ m)
    (h : m <:+: A ++ x :: B) : m <:+: A ∨ m <:+: B := by
  induction A with
  | nil =>
    rcases List.infix_cons_iff.1 h with hp | hi
    · cases m with
      | nil => exact Or.inl List.nil_infix
      | cons a as =>
        rcases List.cons_prefix_cons.1 hp with ⟨hax, _⟩
        exact absurd (hax ▸ List.mem_cons_self a as) hx
    · exact Or.inr hi
  | cons a A ih =>
    rcases List.infix_cons_iff.1 h with hp | hi
    · exact Or.inl (prefix_through_sep hx hp).isInfix
    · rcases ih hi with h1 | h2
      · exact Or.inl (List.infix_cons h1)
      · exact Or.inr h2

theorem afterLast_eq_none {m l : List Char} (h : ¬ m <:+: l) : afterLast m l = none := by
  induction l with
  | nil => rfl
  | cons c rest ih =>
    have h1 : ¬ m <:+: rest := fun hh => h (List.infix_cons hh)
    have h2 : prefixCheck m (c :: rest) = false := by
      rw [Bool.eq_false_iff]
      intro hpc
      exact h ((prefixCheck_iff m (c :: rest)).1 hpc).isInfix
    simp [afterLast, ih h1, h2]

theorem beforeLast_eq_none {m l : List Char} (h : ¬ m <:+: l) : beforeLast m l = none := by
  induction l with
  | nil => rfl
  | cons c rest ih =>
    have h1 : ¬ m <:+: rest := fun hh => h (List.infix_cons hh)
    have h2 : prefixCheck m (c :: rest) = false := by
      rw [Bool.eq_false_iff]
      intro hpc
      exact h ((prefixCheck_iff m (c :: rest)).1 hpc).isInfix
    simp [beforeLast, ih h1, h2]

theorem afterLast_append {m mrest B : List Char} {mc : Char} (A : List Char)
    (hm : m = mc :: mrest) (hB : ¬ m <:+: (mrest ++ B)) :
    afterLast m (A ++ (m ++ B)) = some B := by
  induction A with
  | nil =>
    subst hm
    show afterLast (mc :: mrest) (mc :: (mrest ++ B)) = some B
    have hnone : afterLast (mc :: mrest) (mrest ++ B) = none := afterLast_eq_none hB
    have hpc : prefixCheck (mc :: mrest) (mc :: (mrest ++ B)) = true := by
      simp [prefixCheck, prefixCheck_self_append]
    simp [afterLast, hnone, hpc, List.drop_left]
  | cons a A ih =>
    show afterLast m (a :: (A ++ (m ++ B))) = some B
    simp [afterLast, ih]

theorem beforeLast_append {m mrest B : List Char} {mc : Char} (A : List Char)
    (hm : m = mc :: mrest) (hB : ¬ m <:+: (mrest ++ B)) :
    beforeLast m (A ++ (m ++ B)) = some A := by
  induction A with
  | nil =>
    subst hm
    show beforeLast (mc :: mrest) (mc :: (mrest ++ B)) = some []
    have hnone : beforeLast (mc :: mrest) (mrest ++ B) = none := beforeLast_eq_none hB
    have hpc : prefixCheck (mc :: mrest) (mc :: (mrest ++ B)) = true := by
      simp [prefixCheck, prefixCheck_self_append]
    simp [beforeLast, hnone, hpc]
  | cons a A ih =>
    show beforeLast m (a :: (A ++ (m ++ B))) = some (a :: A)
    simp [beforeLast, ih]

theorem skipWs_cons {c : Char} (l : List Char) (h : isJsonWs c = false) :
    skipWs (c :: l) = c :: l := by
  simp [skipWs, h]

theorem isDigit10_digitChar10 : ∀ k, k < 10 → isDigit10 (digitChar10 k) = true := by decide

theorem digitChar10_val : ∀ k, k < 10 → (digitChar10 k).toNat - 48 = k := by decide

theorem digitChar10_ne_zero : ∀ k, 1 ≤ k → k < 10 → digitChar10 k ≠ '0' := by decide

theorem natDigitsFuel_zero : ∀ f, natDigitsFuel f 0 = [] := by
  intro f
  cases f <;> rfl

theorem digitsVal_append (acc : Nat) (l1 l2 : List Char) :
    digitsVal acc (l1 ++ l2) = digitsVal (digitsVal acc l1) l2 := by
  simp [digitsVal, List.foldl_append]

theorem natDigitsFuel_digits : ∀ fuel n c, c ∈ natDigitsFuel fuel n → isDigit10 c = true := by
  intro fuel
  induction fuel with
  | zero => intro n c hc; simp [natDigitsFuel] at hc
  | succ fuel ih =>
    intro n c hc
    cases n with
    | zero => simp [natDigitsFuel] at hc
    | succ m =>
      simp only [natDigitsFuel, List.mem_append, List.mem_singleton] at hc
      rcases hc with hc | hc
      · exact ih _ _ hc
      · rw [hc]
        exact isDigit10_digitChar10 _ (Nat.mod_lt _ (by norm_num))

theorem natDigitsFuel_val : ∀ fuel n acc, 0 < n → n ≤ fuel →
    digitsVal acc (natDigitsFuel fuel n) =
      acc * 10 ^ (natDigitsFuel fuel n).length + n := by
  intro fuel
  induction fuel with
  | zero => intro n acc h1 h2; omega
  | succ fuel ih =>
    intro n acc h1 h2
    obtain ⟨m, rfl⟩ : ∃ m, n = m + 1 := ⟨n - 1, by omega⟩
    have hstep : natDigitsFuel (fuel + 1) (m + 1) =
        natDigitsFuel fuel ((m + 1) / 10) ++ [digitChar10 ((m + 1) % 10)] := rfl
    have hmod : (m + 1) % 10 < 10 := Nat.mod_lt _ (by norm_num)
    have hv := digitChar10_val ((m + 1) % 10) hmod
    have hone : ∀ x, digitsVal x [digitChar10 ((m + 1) % 10)] = x * 10 + (m + 1) % 10 := by
      intro x
      simp [digitsVal, hv]
    by_cases hq : (m + 1) / 10 = 0
    · have hsmall : m + 1 < 10 := by omega
      have hm : (m + 1) % 10 = m + 1 := Nat.mod_eq_of_lt hsmall
      rw [hstep, hq, natDigitsFuel_zero, List.nil_append, hone, hm]
      simp [pow_one]
    · have hlt : (m + 1) / 10 < m + 1 := Nat.div_lt_self (by omega) (by norm_num)
      have hpos : 0 < (m + 1) / 10 := Nat.pos_of_ne_zero hq
      have hle : (m + 1) / 10 ≤ fuel := by omega
      have hdm : 10 * ((m + 1) / 10) + (m + 1) % 10 = m + 1 := Nat.div_add_mod _ 10
      set L := (natDigitsFuel fuel ((m + 1) / 10)).length with hL
      have hlen : (natDigitsFuel fuel ((m + 1) / 10) ++ [digitChar10 ((m + 1) % 10)]).length
          = L + 1 := by
        simp [hL]
      rw [hstep, digitsVal_append, ih _ acc hpos hle, hone, hlen, pow_succ]
      have hkey : (acc * 10 ^ L + (m + 1) / 10) * 10 + (m + 1) % 10 =
          acc * (10 ^ L * 10) + (10 * ((m + 1) / 10) + (m + 1) % 10) := by ring
      rw [hkey, hdm]

theorem natDigitsFuel_head : ∀ fuel n, 0 < n → n ≤ fuel →
    ∃ c cs, natDigitsFuel fuel n = c :: cs ∧ isDigit10 c = true ∧ c ≠ '0' := by
  intro fuel
  induction fuel with
  | zero => intro n h1 h2; omega
  | succ fuel ih =>
    intro n h1 h2
    obtain ⟨m, rfl⟩ : ∃ m, n = m + 1 := ⟨n - 1, by omega⟩
    show ∃ c cs, natDigitsFuel fuel ((m + 1) / 10) ++ [digitChar10 ((m + 1) % 10)] = c :: cs ∧ _
    by_cases hq : (m + 1) / 10 = 0
    · have hsmall : m + 1 < 10 := by omega
      have hm : (m + 1) % 10 = m + 1 := Nat.mod_eq_of_lt hsmall
      rw [hq, natDigitsFuel_zero, List.nil_append]
      refine ⟨digitChar10 ((m + 1) % 10), [], rfl, isDigit10_digitChar10 _ (by omega), ?_⟩
      rw [hm]
      exact digitChar10_ne_zero _ (by omega) hsmall
    · have hlt : (m + 1) / 10 < m + 1 := Nat.div_lt_self (by omega) (by norm_num)
      obtain ⟨c, cs, heq, hd, hz⟩ := ih ((m + 1) / 10) (Nat.pos_of_ne_zero hq) (by omega)
      exact ⟨c, cs ++ [digitChar10 ((m + 1) % 10)], by rw [heq]; rfl, hd, hz⟩

theorem natDigits_digits : ∀ n c, c ∈ natDigits n → isDigit10 c = true := by
  intro n c hc
  by_cases h : n = 0
  · subst h
    simp [natDigits] at hc
    rw [hc]
    decide
  · rw [natDigits, if_neg h] at hc
    exact natDigitsFuel_digits _ _ _ hc

theorem natDigits_val (n : Nat) : digitsVal 0 (natDigits n) = n := by
  by_cases h : n = 0
  · subst h; decide
  · rw [natDigits, if_neg h, natDigitsFuel_val n n 0 (by omega) (by omega)]
    simp

theorem natDigits_head : ∀ n, ∃ c cs, natDigits n = c :: cs ∧ isDigit10 c = true ∧
    (0 < n → c ≠ '0') ∧ (n = 0 → c = '0' ∧ cs = []) := by
  intro n
  by_cases h : n = 0
  · subst h
    exact ⟨'0', [], rfl, by decide, by omega, fun _ => ⟨rfl, rfl⟩⟩
  · rw [natDigits, if_neg h]
    obtain ⟨c, cs, heq, hd, hz⟩ := natDigitsFuel_head n n (by omega) (by omega)
    exact ⟨c, cs, heq, hd, fun _ => hz, fun h0 => absurd h0 h⟩

theorem parseDigits_spec : ∀ l rest acc, (∀ c ∈ l, isDigit10 c = true) →
    headDigit rest = false → parseDigits acc (l ++ rest) = (digitsVal acc l, rest) := by
  intro l
  induction l with
  | nil =>
    intro rest acc _ hr
    cases rest with
    | nil => rfl
    | cons c r =>
      have : isDigit10 c = false := hr
      simp [parseDigits, this, digitsVal]
  | cons c l ih =>
    intro rest acc hl hr
    have hc : isDigit10 c = true := hl c (List.mem_cons_self c l)
    show parseDigits acc (c :: (l ++ rest)) = _
    simp only [parseDigits, hc, if_true]
    rw [ih rest _ (fun d hd => hl d (List.mem_cons_of_mem c hd)) hr]
    simp [digitsVal]

theorem parseIntPart_natDigits : ∀ m rest, headDigit rest = false →
    parseIntPart (natDigits m ++ rest) = some (m, rest) := by
  intro m rest hr
  obtain ⟨c, cs, heq, hd, hz, h0⟩ := natDigits_head m
  rw [heq]
  by_cases hm : m = 0
  · obtain ⟨hc0, hcs⟩ := h0 hm
    subst hc0 hcs hm
    show parseIntPart ('0' :: rest) = some (0, rest)
    simp [parseIntPart]
  · have hcz : c ≠ '0' := hz (by omega)
    show parseIntPart (c :: (cs ++ rest)) = some (m, rest)
    simp only [parseIntPart, if_neg hcz, hd, if_true]
    have hdigs : ∀ d ∈ cs, isDigit10 d = true := by
      intro d hdm
      exact natDigits_digits m d (by rw [heq]; exact List.mem_cons_of_mem c hdm)
    rw [parseDigits_spec cs rest _ hdigs hr]
    have hval : digitsVal 0 (natDigits m) = m := natDigits_val m
    rw [heq] at hval
    have : digitsVal 0 (c :: cs) = digitsVal (c.toNat - 48) cs := by
      simp [digitsVal]
    rw [this] at hval
    rw [hval]

theorem hexVal_hexDigitL : ∀ d, d < 16 → hexVal (hexDigitL d) = some d := by decide

theorem hexVal4_hex4 (n : Nat) (h : n < 65536) :
    hexVal4 (hexDigitL (n / 4096 % 16)) (hexDigitL (n / 256 % 16))
      (hexDigitL (n / 16 % 16)) (hexDigitL (n % 16)) = some n := by
  rw [hexVal4, hexVal_hexDigitL _ (Nat.mod_lt _ (by norm_num)),
    hexVal_hexDigitL _ (Nat.mod_lt _ (by norm_num)),
    hexVal_hexDigitL _ (Nat.mod_lt _ (by norm_num)),
    hexVal_hexDigitL _ (Nat.mod_lt _ (by norm_num))]
  have hid : n / 4096 % 16 * 4096 + n / 256 % 16 * 256 + n / 16 % 16 * 16 + n % 16 = n := by
    omega
  show some (n / 4096 % 16 * 4096 + n / 256 % 16 * 256 + n / 16 % 16 * 16 + n % 16) = some n
  rw [hid]

theorem charValid (c : Char) : c.toNat < 55296 ∨ (57344 ≤ c.toNat ∧ c.toNat < 1114112) := by
  have h := c.valid
  rcases h with h | ⟨h1, h2⟩
  · left
    exact h
  · right
    exact ⟨by exact_mod_cast h1, by exact_mod_cast h2⟩

theorem scanUnits_quote (rest : List Char) : scanUnits ('"' :: rest) = some ([], rest) := by
  rw [scanUnits.eq_def]
  simp

theorem scanUnits_raw (c : Char) (rest : List Char) (h1 : ¬ c = '"') (h2 : ¬ c = '\\')
    (h3 : ¬ c.toNat < 32) :
    scanUnits (c :: rest) =
      match scanUnits rest with
      | some (us, r) => some (c.toNat :: us, r)
      | none => none := by
  rw [scanUnits.eq_def]
  simp only [if_neg h1, if_neg h2, if_neg h3]

theorem scanUnits_short (e d : Char) (rest : List Char) (hu : ¬ e = 'u')
    (hd : unescapeChar e = some d) :
    scanUnits ('\\' :: e :: rest) =
      match scanUnits rest with
      | some (us, r) => some (d.toNat :: us, r)
      | none => none := by
  rw [scanUnits.eq_def]
  simp [hu, hd]

theorem scanUnits_u (h1 h2 h3 h4 : Char) (hv : Nat) (rest : List Char)
    (hhex : hexVal4 h1 h2 h3 h4 = some hv) :
    scanUnits ('\\' :: 'u' :: h1 :: h2 :: h3 :: h4 :: rest) =
      match scanUnits rest with
      | some (us, r) => some (hv :: us, r)
      | none => none := by
  rw [scanUnits.eq_def]
  simp [hhex]

theorem scanUnits_escapeChar (c : Char) (X : List Char) (us : List Nat) (r : List Char)
    (hX : scanUnits X = some (us, r)) :
    scanUnits (escapeChar c ++ X) = some (charUnits c ++ us, r) := by
  rw [escapeChar.eq_def]
  split_ifs with h1 h2 h3 h4 h5 h6 h7 h8 h9
  · subst h1
    rw [show (['\\', '"'] : List Char) ++ X = '\\' :: '"' :: X from rfl,
      scanUnits_short '"' '"' X (by decide) (by decide), hX]
    rfl
  · subst h2
    rw [show (['\\', '\\'] : List Char) ++ X = '\\' :: '\\' :: X from rfl,
      scanUnits_short '\\' '\\' X (by decide) (by decide), hX]
    rfl
  · subst h3
    rw [show (['\\', 'b'] : List Char) ++ X = '\\' :: 'b' :: X from rfl,
      scanUnits_short 'b' '\x08' X (by decide) (by decide), hX]
    rfl
  · subst h4
    rw [show (['\\', 't'] : List Char) ++ X = '\\' :: 't' :: X from rfl,
      scanUnits_short 't' '\x09' X (by decide) (by decide), hX]
    rfl
  · subst h5
    rw [show (['\\', 'n'] : List Char) ++ X = '\\' :: 'n' :: X from rfl,
      scanUnits_short 'n' '\x0a' X (by decide) (by decide), hX]
    rfl
  · subst h6
    rw [show (['\\', 'f'] : List Char) ++ X = '\\' :: 'f' :: X from rfl,
      scanUnits_short 'f' '\x0c' X (by decide) (by decide), hX]
    rfl
  · subst h7
    rw [show (['\\', 'r'] : List Char) ++ X = '\\' :: 'r' :: X from rfl,
      scanUnits_short 'r' '\x0d' X (by decide) (by decide), hX]
    rfl
  · rw [show ([c] : List Char) ++ X = c :: X from rfl,
      scanUnits_raw c X h1 h2 (by omega), hX]
    have hlt : c.toNat < 65536 := by omega
    simp [charUnits, hlt]
  · simp only [hex4]
    rw [show ('\\' :: 'u' :: [hexDigitL (c.toNat / 4096 % 16), hexDigitL (c.toNat / 256 % 16),
        hexDigitL (c.toNat / 16 % 16), hexDigitL (c.toNat % 16)]) ++ X =
      '\\' :: 'u' :: hexDigitL (c.toNat / 4096 % 16) :: hexDigitL (c.toNat / 256 % 16) ::
        hexDigitL (c.toNat / 16 % 16) :: hexDigitL (c.toNat % 16) :: X from rfl,
      scanUnits_u _ _ _ _ c.toNat X (hexVal4_hex4 c.toNat h9), hX]
    simp [charUnits, h9]
  · have hbig : 65536 ≤ c.toNat := by omega
    have hbound : c.toNat < 1114112 := by
      rcases charValid c with h | ⟨_, h⟩
      · omega
      · exact h
    have hv : c.toNat - 65536 < 1048576 := by omega
    have hhi : 55296 + (c.toNat - 65536) / 1024 < 65536 := by omega
    have hlo : 56320 + (c.toNat - 65536) % 1024 < 65536 := by
      have := Nat.mod_lt (c.toNat - 65536) (show 0 < 1024 by norm_num)
      omega
    rw [List.append_assoc]
    simp only [hex4]
    rw [show ('\\' :: 'u' :: [hexDigitL ((55296 + (c.toNat - 65536) / 1024) / 4096 % 16),
        hexDigitL ((55296 + (c.toNat - 65536) / 1024) / 256 % 16),
        hexDigitL ((55296 + (c.toNat - 65536) / 1024) / 16 % 16),
        hexDigitL ((55296 + (c.toNat - 65536) / 1024) % 16)]) ++
        (('\\' :: 'u' :: [hexDigitL ((56320 + (c.toNat - 65536) % 1024) / 4096 % 16),
        hexDigitL ((56320 + (c.toNat - 65536) % 1024) / 256 % 16),
        hexDigitL ((56320 + (c.toNat - 65536) % 1024) / 16 % 16),
        hexDigitL ((56320 + (c.toNat - 65536) % 1024) % 16)]) ++ X) =
      '\\' :: 'u' :: hexDigitL ((55296 + (c.toNat - 65536) / 1024) / 4096 % 16) ::
        hexDigitL ((55296 + (c.toNat - 65536) / 1024) / 256 % 16) ::
        hexDigitL ((55296 + (c.toNat - 65536) / 1024) / 16 % 16) ::
        hexDigitL ((55296 + (c.toNat - 65536) / 1024) % 16) ::
        ('\\' :: 'u' :: hexDigitL ((56320 + (c.toNat - 65536) % 1024) / 4096 % 16) ::
        hexDigitL ((56320 + (c.toNat - 65536) % 1024) / 256 % 16) ::
        hexDigitL ((56320 + (c.toNat - 65536) % 1024) / 16 % 16) ::
        hexDigitL ((56320 + (c.toNat - 65536) % 1024) % 16) :: X) from rfl,
      scanUnits_u _ _ _ _ _ _ (hexVal4_hex4 _ hhi),
      scanUnits_u _ _ _ _ _ _ (hexVal4_hex4 _ hlo), hX]
    have hcu : charUnits c =
        [55296 + (c.toNat - 65536) / 1024, 56320 + (c.toNat - 65536) % 1024] := by
      rw [charUnits, if_neg (by omega)]
    rw [hcu]
    rfl

theorem scanUnits_escape : ∀ s rest : List Char,
    scanUnits (escapeList s ++ '"' :: rest) = some (unitsList s, rest) := by
  intro s
  induction s with
  | nil =>
    intro rest
    exact scanUnits_quote rest
  | cons c s ih =>
    intro rest
    rw [show escapeList (c :: s) = escapeChar c ++ escapeList s from rfl, List.append_assoc]
    exact scanUnits_escapeChar c _ _ _ (ih rest)

theorem unitsToChars_unitsList : ∀ s : List Char, unitsToChars (unitsList s) = some s := by
  intro s
  induction s with
  | nil => rfl
  | cons c s ih =>
    show unitsToChars (charUnits c ++ unitsList s) = some (c :: s)
    by_cases hb : c.toNat < 65536
    · have hcu : charUnits c = [c.toNat] := by rw [charUnits, if_pos hb]
      have hno : ¬ (55296 ≤ c.toNat ∧ c.toNat ≤ 56319) := by
        rcases charValid c with h | ⟨h1, h2⟩ <;> omega
      have hno2 : ¬ (56320 ≤ c.toNat ∧ c.toNat ≤ 57343) := by
        rcases charValid c with h | ⟨h1, h2⟩ <;> omega
      rw [hcu]
      show unitsToChars (c.toNat :: unitsList s) = some (c :: s)
      rw [unitsToChars.eq_def]
      simp only [if_neg hno, if_neg hno2, ih, Char.ofNat_toNat]
    · have hbound : c.toNat < 1114112 := by
        rcases charValid c with h | ⟨_, h⟩
        · omega
        · exact h
      have hv : c.toNat - 65536 < 1048576 := by omega
      have hmod : (c.toNat - 65536) % 1024 < 1024 :=
        Nat.mod_lt _ (by norm_num)
      have hcu : charUnits c =
          [55296 + (c.toNat - 65536) / 1024, 56320 + (c.toNat - 65536) % 1024] := by
        rw [charUnits, if_neg hb]
      rw [hcu]
      show unitsToChars ((55296 + (c.toNat - 65536) / 1024) ::
        (56320 + (c.toNat - 65536) % 1024) :: unitsList s) = some (c :: s)
      rw [unitsToChars.eq_def]
      have hhi : 55296 ≤ 55296 + (c.toNat - 65536) / 1024 ∧
          55296 + (c.toNat - 65536) / 1024 ≤ 56319 := by omega
      have hlo : 56320 ≤ 56320 + (c.toNat - 65536) % 1024 ∧
          56320 + (c.toNat - 65536) % 1024 ≤ 57343 := by omega
      simp only [if_pos hhi, if_pos hlo, ih]
      have harg : 65536 + (55296 + (c.toNat - 65536) / 1024 - 55296) * 1024 +
          (56320 + (c.toNat - 65536) % 1024 - 56320) = c.toNat := by omega
      rw [harg, Char.ofNat_toNat]

theorem parseStringBody_escape (s rest : List Char) :
    parseStringBody (escapeList s ++ '"' :: rest) = some (s, rest) := by
  rw [parseStringBody, scanUnits_escape s rest]
  show (match unitsToChars (unitsList s) with
    | some cs => some (cs, rest)
    | none => none) = some (s, rest)
  rw [unitsToChars_unitsList s]

theorem isDigit10_iff (c : Char) : isDigit10 c = true ↔ 48 ≤ c.toNat ∧ c.toNat ≤ 57 := by
  simp [isDigit10, Bool.and_eq_true, decide_eq_true_eq]

theorem char_ne_of_toNat_ne {c d : Char} (h : c.toNat ≠ d.toNat) : c ≠ d := by
  intro he
  exact h (he ▸ rfl)

theorem digit_head_props (c : Char) (h : isDigit10 c = true) :
    isJsonWs c = false ∧ ¬ c = 'n' ∧ ¬ c = 't' ∧ ¬ c = 'f' ∧ ¬ c = '"' ∧ ¬ c = '[' ∧
      ¬ c = '\x7b' ∧ ¬ c = '-' ∧ ¬ c = ']' ∧ ¬ c = '\x7d' := by
  have hr := (isDigit10_iff c).1 h
  have hws : isJsonWs c = false := by
    have h1 : c ≠ ' ' := char_ne_of_toNat_ne (by rw [show (' ').toNat = 32 from rfl]; omega)
    have h2 : c ≠ '\x09' := char_ne_of_toNat_ne (by rw [show ('\x09').toNat = 9 from rfl]; omega)
    have h3 : c ≠ '\x0a' := char_ne_of_toNat_ne (by rw [show ('\x0a').toNat = 10 from rfl]; omega)
    have h4 : c ≠ '\x0d' := char_ne_of_toNat_ne (by rw [show ('\x0d').toNat = 13 from rfl]; omega)
    simp [isJsonWs, h1, h2, h3, h4]
  exact ⟨hws,
    char_ne_of_toNat_ne (by rw [show ('n').toNat = 110 from rfl]; omega),
    char_ne_of_toNat_ne (by rw [show ('t').toNat = 116 from rfl]; omega),
    char_ne_of_toNat_ne (by rw [show ('f').toNat = 102 from rfl]; omega),
    char_ne_of_toNat_ne (by rw [show ('"').toNat = 34 from rfl]; omega),
    char_ne_of_toNat_ne (by rw [show ('[').toNat = 91 from rfl]; omega),
    char_ne_of_toNat_ne (by rw [show ('\x7b').toNat = 123 from rfl]; omega),
    char_ne_of_toNat_ne (by rw [show ('-').toNat = 45 from rfl]; omega),
    char_ne_of_toNat_ne (by rw [show (']').toNat = 93 from rfl]; omega),
    char_ne_of_toNat_ne (by rw [show ('\x7d').toNat = 125 from rfl]; omega)⟩

theorem headDigit_of_floatStart {r : List Char} (h : floatStart r = false) :
    headDigit r = false := by
  cases r with
  | nil => rfl
  | cons c l =>
    have : (isDigit10 c || c = '.' || c = 'e' || c = 'E') = false := h
    simp only [Bool.or_eq_false_iff] at this
    exact this.1.1.1

theorem serJson_head (v : Json) : ∃ c l, serJson v = c :: l ∧ isJsonWs c = false ∧
    ¬ c = ']' ∧ ¬ c = '\x7d' := by
  cases v with
  | null =>
    exact ⟨'n', _, rfl, by decide⟩
  | bool b =>
    rcases b with _ | _
    · exact ⟨'f', _, rfl, by decide⟩
    · exact ⟨'t', _, rfl, by decide⟩
  | num n =>
    show ∃ c l, intDigits n = c :: l ∧ _
    by_cases hneg : n < 0
    · exact ⟨'-', _, by rw [intDigits, if_pos hneg], by decide⟩
    · rw [intDigits, if_neg hneg]
      obtain ⟨c, cs, heq, hd, _, _⟩ := natDigits_head n.natAbs
      obtain ⟨hws, _, _, _, _, _, _, _, hb1, hb2⟩ := digit_head_props c hd
      exact ⟨c, cs, heq, hws, hb1, hb2⟩
  | str s =>
    exact ⟨'"', _, rfl, by decide⟩
  | arr xs =>
    cases xs with
    | nil =>
      exact ⟨'[', _, rfl, by decide⟩
    | cons x xs =>
      exact ⟨'[', _, rfl, by decide⟩
  | obj ms =>
    cases ms with
    | nil =>
      exact ⟨'\x7b', _, rfl, by decide⟩
    | cons m ms =>
      exact ⟨'\x7b', _, rfl, by decide⟩

theorem floatStart_serTail (xs : List Json) (B : List Char) :
    floatStart (serTail xs ++ B) = false := by
  cases xs <;> rfl

theorem floatStart_serMTail (ms : List (String × Json)) (B : List Char) :
    floatStart (serMTail ms ++ B) = false := by
  cases ms <;> rfl

theorem skipWs_serTail (xs : List Json) (B : List Char) :
    skipWs (serTail xs ++ B) = serTail xs ++ B := by
  cases xs <;> exact skipWs_cons _ (by decide)

theorem skipWs_serMTail (ms : List (String × Json)) (B : List Char) :
    skipWs (serMTail ms ++ B) = serMTail ms ++ B := by
  cases ms <;> exact skipWs_cons _ (by decide)

theorem fsize_pos : ∀ v : Json, 0 < fsize v := by
  intro v
  cases v <;> simp [fsize]

theorem fsize_le_fsizeL {y : Json} : ∀ {l : List Json}, y ∈ l → fsize y ≤ fsizeL l := by
  intro l h
  induction l with
  | nil => cases h
  | cons a l ih =>
    rcases List.mem_cons.1 h with rfl | hm
    · simp [fsizeL]
      omega
    · have := ih hm
      simp [fsizeL]
      omega

theorem length_le_fsizeL : ∀ l : List Json, l.length ≤ fsizeL l := by
  intro l
  induction l with
  | nil => simp [fsizeL]
  | cons a l ih =>
    have := fsize_pos a
    simp [fsizeL]
    omega

theorem fsize_le_fsizeM {v : Json} {k : String} {l : List (String × Json)}
    (h : (k, v) ∈ l) : fsize v ≤ fsizeM l := by
  induction l with
  | nil => cases h
  | cons a l ih =>
    rcases List.mem_cons.1 h with heq | hm
    · obtain ⟨k2, v2⟩ := a
      obtain ⟨rfl, rfl⟩ := Prod.mk.injEq .. ▸ heq
      simp at heq
      simp [fsizeM]
      omega
    · have := ih hm
      obtain ⟨k2, v2⟩ := a
      simp [fsizeM]
      omega

theorem length_le_fsizeM : ∀ l : List (String × Json), l.length ≤ fsizeM l := by
  intro l
  induction l with
  | nil => simp [fsizeM]
  | cons a l ih =>
    obtain ⟨k2, v2⟩ := a
    have := fsize_pos v2
    simp [fsizeM]
    omega

theorem parseElems_succ (pv : List Char → Option (Json × List Char)) (fuel : Nat)
    (s : List Char) :
    parseElems pv (fuel + 1) s =
      match pv s with
      | none => none
      | some (v, r) =>
        match skipWs r with
        | ',' :: r2 =>
          match parseElems pv fuel (skipWs r2) with
          | some (vs, r3) => some (v :: vs, r3)
          | none => none
        | ']' :: r2 => some ([v], r2)
        | _ => none := by
  rw [parseElems.eq_def]

theorem parseMembers_succ (pv : List Char → Option (Json × List Char)) (fuel : Nat)
    (s : List Char) :
    parseMembers pv (fuel + 1) s =
      match s with
      | '"' :: r0 =>
        match parseStringBody r0 with
        | none => none
        | some (kcs, r1) =>
          match skipWs r1 with
          | ':' :: r2 =>
            match pv (skipWs r2) with
            | none => none
            | some (v, r3) =>
              match skipWs r3 with
              | ',' :: r4 =>
                match parseMembers pv fuel (skipWs r4) with
                | some (ms, r5) => some ((String.mk kcs, v) :: ms, r5)
                | none => none
              | '\x7d' :: r4 => some ([(String.mk kcs, v)], r4)
              | _ => none
          | _ => none
      | _ => none := by
  rw [parseMembers.eq_def]

theorem parseElems_ser (pv : List Char → Option (Json × List Char)) :
    ∀ (xs : List Json) (fuel : Nat) (x : Json) (B : List Char),
    (∀ y ∈ x :: xs, ∀ r, floatStart r = false → pv (serJson y ++ r) = some (y, r)) →
    xs.length + 1 ≤ fuel →
    parseElems pv fuel (serJson x ++ (serTail xs ++ B)) = some (x :: xs, B) := by
  intro xs
  induction xs with
  | nil =>
    intro fuel x B H hf
    obtain ⟨f, rfl⟩ : ∃ g, fuel = g + 1 := ⟨fuel - 1, by omega⟩
    have hx := H x (List.mem_cons_self x []) (serTail [] ++ B) (floatStart_serTail [] B)
    have hsk : skipWs (serTail [] ++ B) = serTail [] ++ B := skipWs_serTail [] B
    rw [parseElems_succ, hx]
    show (match skipWs (serTail [] ++ B) with
      | ',' :: r2 =>
        match parseElems pv f (skipWs r2) with
        | some (vs, r3) => some (x :: vs, r3)
        | none => none
      | ']' :: r2 => some ([x], r2)
      | _ => none) = some ([x], B)
    rw [hsk]
    rfl
  | cons y ys ih =>
    intro fuel x B H hf
    obtain ⟨f, rfl⟩ : ∃ g, fuel = g + 1 := ⟨fuel - 1, by omega⟩
    have hx := H x (List.mem_cons_self x (y :: ys)) (serTail (y :: ys) ++ B)
      (floatStart_serTail (y :: ys) B)
    rw [parseElems_succ, hx]
    show (match skipWs (serTail (y :: ys) ++ B) with
      | ',' :: r2 =>
        match parseElems pv f (skipWs r2) with
        | some (vs, r3) => some (x :: vs, r3)
        | none => none
      | ']' :: r2 => some ([x], r2)
      | _ => none) = some (x :: y :: ys, B)
    have hsk : skipWs (serTail (y :: ys) ++ B) =
        ',' :: ((serJson y ++ serTail ys) ++ B) := by
      exact skipWs_serTail (y :: ys) B
    rw [hsk]
    show (match parseElems pv f (skipWs ((serJson y ++ serTail ys) ++ B)) with
      | some (vs, r3) => some (x :: vs, r3)
      | none => none) = some (x :: y :: ys, B)
    rw [List.append_assoc]
    have hsk2 : skipWs (serJson y ++ (serTail ys ++ B)) =
        serJson y ++ (serTail ys ++ B) := by
      obtain ⟨c0, l0, heq0, hws0, _, _⟩ := serJson_head y
      rw [heq0]
      exact skipWs_cons _ hws0
    rw [hsk2]
    have H2 : ∀ z ∈ y :: ys, ∀ r, floatStart r = false → pv (serJson z ++ r) = some (z, r) :=
      fun z hz => H z (List.mem_cons_of_mem x hz)
    rw [ih f y B H2 (by simp at hf; omega)]

theorem parseMembers_ser (pv : List Char → Option (Json × List Char)) :
    ∀ (ms : List (String × Json)) (fuel : Nat) (k : String) (v : Json) (B : List Char),
    (∀ y ∈ (k, v) :: ms, ∀ r, floatStart r = false → pv (serJson y.2 ++ r) = some (y.2, r)) →
    ms.length + 1 ≤ fuel →
    parseMembers pv fuel (serMemb (k, v) ++ (serMTail ms ++ B)) = some ((k, v) :: ms, B) := by
  intro ms
  induction ms with
  | nil =>
    intro fuel k v B H hf
    obtain ⟨f, rfl⟩ : ∃ g, fuel = g + 1 := ⟨fuel - 1, by omega⟩
    have hshape : serMemb (k, v) ++ (serMTail [] ++ B) =
        '"' :: (escapeList k.data ++ ('"' :: (':' :: (serJson v ++ (serMTail [] ++ B))))) := by
      show (serStr k ++ ':' :: serJson v) ++ (serMTail [] ++ B) = _
      simp [serStr, List.append_assoc]
    rw [hshape, parseMembers_succ]
    show (match parseStringBody (escapeList k.data ++
        ('"' :: (':' :: (serJson v ++ (serMTail [] ++ B))))) with
      | none => none
      | some (kcs, r1) =>
        match skipWs r1 with
        | ':' :: r2 =>
          match pv (skipWs r2) with
          | none => none
          | some (v2, r3) =>
            match skipWs r3 with
            | ',' :: r4 =>
              match parseMembers pv f (skipWs r4) with
              | some (ms2, r5) => some ((String.mk kcs, v2) :: ms2, r5)
              | none => none
            | '\x7d' :: r4 => some ([(String.mk kcs, v2)], r4)
            | _ => none
        | _ => none) = some ([(k, v)], B)
    rw [parseStringBody_escape]
    show (match skipWs (':' :: (serJson v ++ (serMTail [] ++ B))) with
      | ':' :: r2 =>
        match pv (skipWs r2) with
        | none => none
        | some (v2, r3) =>
          match skipWs r3 with
          | ',' :: r4 =>
            match parseMembers pv f (skipWs r4) with
            | some (ms2, r5) => some ((String.mk k.data, v2) :: ms2, r5)
            | none => none
          | '\x7d' :: r4 => some ([(String.mk k.data, v2)], r4)
          | _ => none
      | _ => none) = some ([(k, v)], B)
    rw [skipWs_cons _ (by decide)]
    show (match pv (skipWs (serJson v ++ (serMTail [] ++ B))) with
      | none => none
      | some (v2, r3) =>
        match skipWs r3 with
        | ',' :: r4 =>
          match parseMembers pv f (skipWs r4) with
          | some (ms2, r5) => some ((String.mk k.data, v2) :: ms2, r5)
          | none => none
        | '\x7d' :: r4 => some ([(String.mk k.data, v2)], r4)
        | _ => none) = some ([(k, v)], B)
    have hsk2 : skipWs (serJson v ++ (serMTail [] ++ B)) =
        serJson v ++ (serMTail [] ++ B) := by
      obtain ⟨c0, l0, heq0, hws0, _, _⟩ := serJson_head v
      rw [heq0]
      exact skipWs_cons _ hws0
    rw [hsk2, H (k, v) (List.mem_cons_self _ _) (serMTail [] ++ B) (floatStart_serMTail [] B)]
    show (match skipWs (serMTail [] ++ B) with
      | ',' :: r4 =>
        match parseMembers pv f (skipWs r4) with
        | some (ms2, r5) => some ((String.mk k.data, v) :: ms2, r5)
        | none => none
      | '\x7d' :: r4 => some ([(String.mk k.data, v)], r4)
      | _ => none) = some ([(k, v)], B)
    rw [skipWs_serMTail]
    rfl
  | cons m ms2 ih =>
    intro fuel k v B H hf
    obtain ⟨k2, v2⟩ := m
    obtain ⟨f, rfl⟩ : ∃ g, fuel = g + 1 := ⟨fuel - 1, by omega⟩
    have hshape : serMemb (k, v) ++ (serMTail ((k2, v2) :: ms2) ++ B) =
        '"' :: (escapeList k.data ++ ('"' :: (':' ::
          (serJson v ++ (serMTail ((k2, v2) :: ms2) ++ B))))) := by
      show (serStr k ++ ':' :: serJson v) ++ _ = _
      simp [serStr, List.append_assoc]
    rw [hshape, parseMembers_succ]
    show (match parseStringBody (escapeList k.data ++ ('"' :: (':' ::
        (serJson v ++ (serMTail ((k2, v2) :: ms2) ++ B))))) with
      | none => none
      | some (kcs, r1) =>
        match skipWs r1 with
        | ':' :: r2 =>
          match pv (skipWs r2) with
          | none => none
          | some (w, r3) =>
            match skipWs r3 with
            | ',' :: r4 =>
              match parseMembers pv f (skipWs r4) with
              | some (ns, r5) => some ((String.mk kcs, w) :: ns, r5)
              | none => none
            | '\x7d' :: r4 => some ([(String.mk kcs, w)], r4)
            | _ => none
        | _ => none) = some ((k, v) :: (k2, v2) :: ms2, B)
    rw [parseStringBody_escape]
    show (match skipWs (':' :: (serJson v ++ (serMTail ((k2, v2) :: ms2) ++ B))) with
      | ':' :: r2 =>
        match pv (skipWs r2) with
        | none => none
        | some (w, r3) =>
          match skipWs r3 with
          | ',' :: r4 =>
            match parseMembers pv f (skipWs r4) with
            | some (ns, r5) => some ((String.mk k.data, w) :: ns, r5)
            | none => none
          | '\x7d' :: r4 => some ([(String.mk k.data, w)], r4)
          | _ => none
      | _ => none) = some ((k, v) :: (k2, v2) :: ms2, B)
    rw [skipWs_cons _ (by decide)]
    have hsk2 : skipWs (serJson v ++ (serMTail ((k2, v2) :: ms2) ++ B)) =
        serJson v ++ (serMTail ((k2, v2) :: ms2) ++ B) := by
      obtain ⟨c0, l0, heq0, hws0, _, _⟩ := serJson_head v
      rw [heq0]
      exact skipWs_cons _ hws0
    show (match pv (skipWs (serJson v ++ (serMTail ((k2, v2) :: ms2) ++ B))) with
      | none => none
      | some (w, r3) =>
        match skipWs r3 with
        | ',' :: r4 =>
          match parseMembers pv f (skipWs r4) with
          | some (ns, r5) => some ((String.mk k.data, w) :: ns, r5)
          | none => none
        | '\x7d' :: r4 => some ([(String.mk k.data, w)], r4)
        | _ => none) = some ((k, v) :: (k2, v2) :: ms2, B)
    rw [hsk2, H (k, v) (List.mem_cons_self _ _) _ (floatStart_serMTail ((k2, v2) :: ms2) B)]
    show (match skipWs (serMTail ((k2, v2) :: ms2) ++ B) with
      | ',' :: r4 =>
        match parseMembers pv f (skipWs r4) with
        | some (ns, r5) => some ((String.mk k.data, v) :: ns, r5)
        | none => none
      | '\x7d' :: r4 => some ([(String.mk k.data, v)], r4)
      | _ => none) = some ((k, v) :: (k2, v2) :: ms2, B)
    rw [skipWs_serMTail]
    show (match parseMembers pv f (skipWs ((serMemb (k2, v2) ++ serMTail ms2) ++ B)) with
      | some (ns, r5) => some ((String.mk k.data, v) :: ns, r5)
      | none => none) = some ((k, v) :: (k2, v2) :: ms2, B)
    rw [List.append_assoc]
    have hsk3 : skipWs (serMemb (k2, v2) ++ (serMTail ms2 ++ B)) =
        serMemb (k2, v2) ++ (serMTail ms2 ++ B) := by
      show skipWs ('"' :: _) = _
      exact skipWs_cons _ (by decide)
    rw [hsk3]
    have H2 : ∀ y ∈ (k2, v2) :: ms2, ∀ r, floatStart r = false →
        pv (serJson y.2 ++ r) = some (y.2, r) :=
      fun y hy => H y (List.mem_cons_of_mem _ hy)
    rw [ih f k2 v2 B H2 (by simp at hf; omega)]

theorem parseValue_ser : ∀ (fuel : Nat) (v : Json) (rest : List Char), fsize v ≤ fuel →
    floatStart rest = false → parseValue fuel (serJson v ++ rest) = some (v, rest) := by
  intro fuel
  induction fuel with
  | zero =>
    intro v rest h1 _
    have := fsize_pos v
    omega
  | succ fuel ih =>
    intro v rest hfs hfl
    cases v with
    | null =>
      show parseValue (fuel + 1) ('n' :: ('u' :: 'l' :: 'l' :: rest)) = some (.null, rest)
      rw [parseValue.eq_def]
      simp [expectLit, prefixCheck]
    | bool b =>
      cases b with
      | true =>
        show parseValue (fuel + 1) ('t' :: ('r' :: 'u' :: 'e' :: rest)) =
          some (.bool true, rest)
        rw [parseValue.eq_def]
        simp [expectLit, prefixCheck]
      | false =>
        show parseValue (fuel + 1) ('f' :: ('a' :: 'l' :: 's' :: 'e' :: rest)) =
          some (.bool false, rest)
        rw [parseValue.eq_def]
        simp [expectLit, prefixCheck]
    | str s =>
      have hshape : serJson (.str s) ++ rest = '"' :: (escapeList s.data ++ ('"' :: rest)) := by
        show ('"' :: (escapeList s.data ++ ['"'])) ++ rest = _
        simp [List.append_assoc]
      rw [hshape, parseValue.eq_def]
      simp [parseStringBody_escape]
    | num n =>
      by_cases hneg : n < 0
      · have hpos : 0 < n.natAbs := by omega
        obtain ⟨c0, cs, heq, hd, hz, _⟩ := natDigits_head n.natAbs
        have hshape : serJson (.num n) ++ rest = '-' :: (natDigits n.natAbs ++ rest) := by
          show intDigits n ++ rest = _
          rw [intDigits, if_pos hneg]
          rfl
        rw [hshape, parseValue.eq_def]
        show parseNeg (natDigits n.natAbs ++ rest) = some (.num n, rest)
        rw [heq]
        show parseNeg (c0 :: (cs ++ rest)) = some (.num n, rest)
        rw [parseNeg.eq_def]
        simp only [hd, if_pos]
        rw [show c0 :: (cs ++ rest) = (c0 :: cs) ++ rest from rfl, ← heq,
          parseIntPart_natDigits _ _ (headDigit_of_floatStart hfl)]
        show (if floatStart rest = true then none
          else some (Json.num (-(n.natAbs : Int)), rest)) = some (Json.num n, rest)
        rw [hfl]
        have : -((n.natAbs : Int)) = n := by omega
        rw [this]
        rfl
      · obtain ⟨c0, cs, heq, hd, _, _⟩ := natDigits_head n.natAbs
        obtain ⟨hws, hn1, hn2, hn3, hn4, hn5, hn6, hn7, _, _⟩ := digit_head_props c0 hd
        have hshape : serJson (.num n) ++ rest = c0 :: (cs ++ rest) := by
          show intDigits n ++ rest = _
          rw [intDigits, if_neg hneg, heq]
          rfl
        rw [hshape, parseValue.eq_def]
        simp only [if_neg hn1, if_neg hn2, if_neg hn3, if_neg hn4, if_neg hn5, if_neg hn6,
          if_neg hn7, hd, if_pos]
        rw [show c0 :: (cs ++ rest) = (c0 :: cs) ++ rest from rfl, ← heq,
          parseIntPart_natDigits _ _ (headDigit_of_floatStart hfl)]
        show (if floatStart rest = true then none
          else some (Json.num ((n.natAbs : Int)), rest)) = some (Json.num n, rest)
        rw [hfl]
        have : ((n.natAbs : Int)) = n := by omega
        rw [this]
        rfl
    | arr xs =>
      cases xs with
      | nil =>
        show parseValue (fuel + 1) ('[' :: (']' :: rest)) = some (.arr [], rest)
        rw [parseValue.eq_def]
        show parseArrayBody (parseElems (parseValue fuel)) fuel (skipWs (']' :: rest)) =
          some (.arr [], rest)
        rw [skipWs_cons _ (by decide)]
        rw [parseArrayBody.eq_def]
        simp
      | cons x xs =>
        obtain ⟨c0, l0, heq0, hws0, hb0, _⟩ := serJson_head x
        have hshape : serJson (.arr (x :: xs)) ++ rest =
            '[' :: (serJson x ++ (serTail xs ++ rest)) := by
          show ('[' :: (serJson x ++ serTail xs)) ++ rest = _
          simp [List.append_assoc]
        rw [hshape, parseValue.eq_def]
        show parseArrayBody (parseElems (parseValue fuel)) fuel
          (skipWs (serJson x ++ (serTail xs ++ rest))) = some (.arr (x :: xs), rest)
        have hsk : skipWs (serJson x ++ (serTail xs ++ rest)) =
            serJson x ++ (serTail xs ++ rest) := by
          rw [heq0]
          exact skipWs_cons _ hws0
        rw [hsk, heq0]
        show parseArrayBody (parseElems (parseValue fuel)) fuel
          (c0 :: (l0 ++ (serTail xs ++ rest))) = some (.arr (x :: xs), rest)
        rw [parseArrayBody.eq_def]
        simp only [if_neg hb0]
        rw [show c0 :: (l0 ++ (serTail xs ++ rest)) =
          serJson x ++ (serTail xs ++ rest) by rw [heq0]; rfl]
        have hfsL : fsizeL (x :: xs) ≤ fuel := by
          have h1 : fsize (.arr (x :: xs)) = 1 + fsizeL (x :: xs) := by simp [fsize]
          omega
        have H : ∀ y ∈ x :: xs, ∀ r, floatStart r = false →
            parseValue fuel (serJson y ++ r) = some (y, r) :=
          fun y hy r hr => ih y r (le_trans (fsize_le_fsizeL hy) hfsL) hr
        have hlen : xs.length + 1 ≤ fuel := by
          have h2 := length_le_fsizeL (x :: xs)
          simp at h2
          omega
        rw [parseElems_ser (parseValue fuel) xs fuel x rest H hlen]
        rfl
    | obj ms =>
      cases ms with
      | nil =>
        show parseValue (fuel + 1) ('\x7b' :: ('\x7d' :: rest)) = some (.obj [], rest)
        rw [parseValue.eq_def]
        show parseObjBody (parseMembers (parseValue fuel)) fuel (skipWs ('\x7d' :: rest)) =
          some (.obj [], rest)
        rw [skipWs_cons _ (by decide)]
        rw [parseObjBody.eq_def]
        simp
      | cons m ms =>
        obtain ⟨k, v2⟩ := m
        have hshape : serJson (.obj ((k, v2) :: ms)) ++ rest =
            '\x7b' :: (serMemb (k, v2) ++ (serMTail ms ++ rest)) := by
          show ('\x7b' :: (serMemb (k, v2) ++ serMTail ms)) ++ rest = _
          simp [List.append_assoc]
        rw [hshape, parseValue.eq_def]
        show parseObjBody (parseMembers (parseValue fuel)) fuel
          (skipWs (serMemb (k, v2) ++ (serMTail ms ++ rest))) =
          some (.obj ((k, v2) :: ms), rest)
        have hsk : skipWs (serMemb (k, v2) ++ (serMTail ms ++ rest)) =
            serMemb (k, v2) ++ (serMTail ms ++ rest) := by
          show skipWs ('"' :: _) = _
          exact skipWs_cons _ (by decide)
        rw [hsk]
        have hshape2 : serMemb (k, v2) ++ (serMTail ms ++ rest) =
            '"' :: (escapeList k.data ++ ('"' :: (':' ::
              (serJson v2 ++ (serMTail ms ++ rest))))) := by
          show (serStr k ++ ':' :: serJson v2) ++ _ = _
          simp [serStr, List.append_assoc]
        rw [hshape2, parseObjBody.eq_def]
        simp only [if_neg (show ¬ ('"' : Char) = '\x7d' by decide)]
        show (parseMembers (parseValue fuel) fuel
            ('"' :: (escapeList k.data ++ ('"' :: (':' ::
              (serJson v2 ++ (serMTail ms ++ rest))))))).map
            (fun p => (Json.obj p.1, p.2)) = some (Json.obj ((k, v2) :: ms), rest)
        rw [← hshape2]
        have hfsM : fsizeM ((k, v2) :: ms) ≤ fuel := by
          have h1 : fsize (.obj ((k, v2) :: ms)) = 1 + fsizeM ((k, v2) :: ms) := by simp [fsize]
          omega
        have H : ∀ y ∈ (k, v2) :: ms, ∀ r, floatStart r = false →
            parseValue fuel (serJson y.2 ++ r) = some (y.2, r) := by
          intro y hy r hr
          obtain ⟨ky, vy⟩ := y
          exact ih vy r (le_trans (fsize_le_fsizeM hy) hfsM) hr
        have hlen : ms.length + 1 ≤ fuel := by
          have h2 := length_le_fsizeM ((k, v2) :: ms)
          simp at h2
          omega
        rw [parseMembers_ser (parseValue fuel) ms fuel k v2 rest H hlen]
        rfl

theorem serTail_len (xs : List Json) (H : ∀ x ∈ xs, fsize x ≤ 2 * (serJson x).length) :
    fsizeL xs ≤ 2 * (serTail xs).length := by
  induction xs with
  | nil => simp [fsizeL, serTail]
  | cons y ys ih =>
    have h1 := H y (List.mem_cons_self y ys)
    have h2 := ih fun x hx => H x (List.mem_cons_of_mem y hx)
    show 1 + fsize y + fsizeL ys ≤ 2 * (',' :: (serJson y ++ serTail ys)).length
    simp only [List.length_cons, List.length_append]
    omega

theorem serMTail_len (ms : List (String × Json))
    (H : ∀ k v, (k, v) ∈ ms → fsize v ≤ 2 * (serJson v).length) :
    fsizeM ms ≤ 2 * (serMTail ms).length := by
  induction ms with
  | nil => simp [fsizeM, serMTail]
  | cons m ms2 ih =>
    obtain ⟨k, v⟩ := m
    have h1 := H k v (List.mem_cons_self _ _)
    have h2 := ih fun k2 v2 hm => H k2 v2 (List.mem_cons_of_mem _ hm)
    show 1 + fsize v + fsizeM ms2 ≤ 2 * (',' :: (serMemb (k, v) ++ serMTail ms2)).length
    have h3 : (serMemb (k, v)).length = (serStr k).length + 1 + (serJson v).length := by
      show (serStr k ++ ':' :: serJson v).length = _
      simp [List.length_append]
      omega
    simp only [List.length_cons, List.length_append]
    omega

theorem serJson_len : ∀ v : Json, fsize v ≤ 2 * (serJson v).length := by
  have main : ∀ (n : Nat) (v : Json), sizeOf v ≤ n → fsize v ≤ 2 * (serJson v).length := by
    intro n
    induction n with
    | zero =>
      intro v h
      cases v <;> simp_all
    | succ n ihn =>
      intro v hv
      cases v with
      | null => simp [fsize, serJson]
      | bool b => cases b <;> simp [fsize, serJson]
      | num m =>
        show fsize (.num m) ≤ 2 * (intDigits m).length
        obtain ⟨c, cs, heq, _, _, _⟩ := natDigits_head m.natAbs
        rw [intDigits]
        by_cases hneg : m < 0
        · rw [if_pos hneg, heq]
          simp [fsize]
          omega
        · rw [if_neg hneg, heq]
          simp [fsize]
          omega
      | str s =>
        show fsize (.str s) ≤ 2 * (serStr s).length
        rw [serStr]
        simp [fsize]
        omega
      | arr xs =>
        cases xs with
        | nil => simp [fsize, fsizeL, serJson]
        | cons x xs2 =>
          have hsz : ∀ y ∈ x :: xs2, sizeOf y ≤ n := by
            intro y hy
            have h1 := List.sizeOf_lt_of_mem hy
            have h2 : sizeOf (Json.arr (x :: xs2)) = 1 + sizeOf (x :: xs2) := by
              simp
            omega
          have h3 := serTail_len xs2 fun y hy =>
            ihn y (hsz y (List.mem_cons_of_mem x hy))
          have h4 := ihn x (hsz x (List.mem_cons_self x xs2))
          show 1 + fsizeL (x :: xs2) ≤ 2 * ('[' :: (serJson x ++ serTail xs2)).length
          show 1 + (1 + fsize x + fsizeL xs2) ≤ _
          simp only [List.length_cons, List.length_append]
          have h5 : fsizeL xs2 ≤ 2 * (serTail xs2).length := by
            cases xs2 with
            | nil => simp [fsizeL, serTail]
            | cons z zs =>
              exact serTail_len (z :: zs) fun y hy =>
                ihn y (hsz y (List.mem_cons_of_mem x hy))
          omega
      | obj ms =>
        cases ms with
        | nil => simp [fsize, fsizeM, serJson]
        | cons m ms2 =>
          obtain ⟨k, v2⟩ := m
          have hsz : ∀ k3 v3, (k3, v3) ∈ (k, v2) :: ms2 → sizeOf v3 ≤ n := by
            intro k3 v3 hy
            have h1 := List.sizeOf_lt_of_mem hy
            have h2 : sizeOf (Json.obj ((k, v2) :: ms2)) = 1 + sizeOf ((k, v2) :: ms2) := by
              simp
            have h3 : sizeOf (k3, v3) = 1 + sizeOf k3 + sizeOf v3 := by simp
            omega
          have h4 := ihn v2 (hsz k v2 (List.mem_cons_self _ _))
          have h5 : fsizeM ms2 ≤ 2 * (serMTail ms2).length := by
            cases ms2 with
            | nil => simp [fsizeM, serMTail]
            | cons z zs =>
              exact serMTail_len (z :: zs) fun k3 v3 hy =>
                ihn v3 (hsz k3 v3 (List.mem_cons_of_mem _ hy))
          have h6 : (serMemb (k, v2)).length = (serStr k).length + 1 + (serJson v2).length := by
            show (serStr k ++ ':' :: serJson v2).length = _
            simp [List.length_append]
            omega
          show 1 + fsizeM ((k, v2) :: ms2) ≤
            2 * ('\x7b' :: (serMemb (k, v2) ++ serMTail ms2)).length
          show 1 + (1 + fsize v2 + fsizeM ms2) ≤ _
          simp only [List.length_cons, List.length_append, h6]
          omega
  exact fun v => main (sizeOf v) v le_rfl

theorem floatStart_nil : floatStart [] = false := rfl

theorem skipWs_ser (o : Json) (X : List Char) :
    skipWs (serJson o ++ X) = serJson o ++ X := by
  obtain ⟨c0, l0, heq0, hws0, _, _⟩ := serJson_head o
  rw [heq0]
  exact skipWs_cons _ hws0

theorem parseJson_serString (o : Json) : parseJson (serString o) = some o := by
  rw [parseJson]
  have hlen : (serString o).length = (serJson o).length := rfl
  have hdata : (serString o).data = serJson o := rfl
  rw [hlen, hdata]
  have hskip : skipWs (serJson o) = serJson o := by
    have := skipWs_ser o []
    simpa using this
  rw [hskip]
  have hfs : fsize o ≤ 2 * (serJson o).length + 2 := by
    have := serJson_len o
    omega
  have hpv : parseValue (2 * (serJson o).length + 2) (serJson o ++ []) = some (o, []) :=
    parseValue_ser _ o [] hfs floatStart_nil
  rw [List.append_nil] at hpv
  rw [hpv]
  rfl

theorem parseJson_wsWrap (o : Json) :
    parseJson (String.mk ('\x0a' :: (serJson o ++ ['\x0a']))) = some o := by
  rw [parseJson]
  have hdata : (String.mk ('\x0a' :: (serJson o ++ ['\x0a']))).data =
      '\x0a' :: (serJson o ++ ['\x0a']) := rfl
  have hlen : (String.mk ('\x0a' :: (serJson o ++ ['\x0a']))).length =
      (serJson o).length + 2 := by
    show ('\x0a' :: (serJson o ++ ['\x0a'])).length = _
    simp
  rw [hdata, hlen]
  have hskip : skipWs ('\x0a' :: (serJson o ++ ['\x0a'])) = serJson o ++ ['\x0a'] := by
    show skipWs ('\x0a' :: (serJson o ++ ['\x0a'])) = _
    rw [skipWs.eq_def]
    simp only [if_pos (by decide : isJsonWs '\x0a' = true)]
    exact skipWs_ser o ['\x0a']
  rw [hskip]
  have hfs : fsize o ≤ 2 * ((serJson o).length + 2) + 2 := by
    have := serJson_len o
    omega
  rw [parseValue_ser _ o ['\x0a'] hfs (by decide)]
  rfl

theorem not_infix_of_hasInfix_eq_false {m l : List Char} (h : hasInfix m l = false) :
    ¬ m <:+: l := by
  intro hi
  rw [(hasInfix_iff m l).2 hi] at h
  simp at h

theorem trainingRender_data (p : String) (o : Json) :
    (trainingRender p o).data =
      ("<|system|>\n".data ++ (SYSTEM_PROMPT.data ++ ("\n<|end|>\n<|user|>\n".data ++
        (p.data ++ "\n<|end|>\n".data)))) ++
      ("<|assistant|>".data ++ ('\x0a' :: (serJson o ++ ('\x0a' :: "<|end|>".data)))) := by
  show ("<|system|>\n" ++ SYSTEM_PROMPT ++ "\n<|end|>\n<|user|>\n" ++ p ++
    "\n<|end|>\n<|assistant|>\n" ++ serString o ++ "\n<|end|>").data = _
  simp only [String.data_append]
  rw [show (serString o).data = serJson o from rfl]
  rw [show (['\n', '<', '|', 'e', 'n', 'd', '|', '>', '\n', '<', '|', 'a', 's', 's', 'i',
      's', 't', 'a', 'n', 't', '|', '>', '\n'] : List Char) =
    ['\n', '<', '|', 'e', 'n', 'd', '|', '>', '\n'] ++
      (['<', '|', 'a', 's', 's', 'i', 's', 't', 'a', 'n', 't', '|', '>'] ++ ['\n']) from rfl]
  simp [List.append_assoc]

theorem extract_trainingRender (p : String) (o : Json)
    (hm : hasInfix "<|assistant|>".data (serJson o) = false) :
    extractAssistantSegment (trainingRender p o) =
      some (String.mk ('\x0a' :: (serJson o ++ ['\x0a']))) := by
  have hnotin : ¬ "<|assistant|>".data <:+:
      ("|assistant|>".data ++ ('\x0a' :: (serJson o ++ ('\x0a' :: "<|end|>".data)))) := by
    intro h
    rcases infix_through_sep (by decide) h with h1 | h2
    · exact not_infix_of_hasInfix_eq_false (by rfl) h1
    · rcases infix_through_sep (by decide) h2 with h3 | h4
      · exact not_infix_of_hasInfix_eq_false hm h3
      · exact not_infix_of_hasInfix_eq_false (by rfl) h4
  have hal : afterLast "<|assistant|>".data (trainingRender p o).data =
      some ('\x0a' :: (serJson o ++ ('\x0a' :: "<|end|>".data))) := by
    rw [trainingRender_data]
    exact afterLast_append _ rfl hnotin
  have hbl : beforeLast "<|end|>".data
      ('\x0a' :: (serJson o ++ ('\x0a' :: "<|end|>".data))) =
      some ('\x0a' :: (serJson o ++ ['\x0a'])) := by
    have hre : '\x0a' :: (serJson o ++ ('\x0a' :: "<|end|>".data)) =
        ('\x0a' :: (serJson o ++ ['\x0a'])) ++ ("<|end|>".data ++ []) := by
      simp [List.append_assoc]
    rw [hre]
    exact beforeLast_append _ rfl (not_infix_of_hasInfix_eq_false (by rfl))
  simp only [extractAssistantSegment, hal, hbl]

/-- C6: the template renderer `format_for_training` is deterministic — rendering the
same example twice (identical inputs) yields byte-identical strings; the rendering is a
pure function of the example, with no timestamps or random ordering. -/
theorem c6_format_for_training_deterministic (e1 e2 : Json) (h : e1 = e2) :
    format_for_training e1 = format_for_training e2 := by
  rw [h]

theorem c6_format_for_training_deterministic_witness :
    format_for_training (Json.obj [("prompt", Json.str "make a poll"),
        ("output", Json.obj [("elements", Json.arr [])])]) =
      format_for_training (Json.obj [("prompt", Json.str "make a poll"),
        ("output", Json.obj [("elements", Json.arr [])])]) :=
  c6_format_for_training_deterministic _ _ rfl

/-- C7: for every example the training rendering is the inference rendering of the same
prompt followed by the full serialized output and a closing end-of-turn marker, and the
inference rendering leaves the assistant segment open: it ends right after the
assistant role marker and its newline, with no assistant text and no closing marker. -/
theorem c7_training_closed_inference_open (p : String) (o : Json) :
    trainingRender p o = inference_prompt p ++ serString o ++ "\n<|end|>" ∧
    ∃ pre, inference_prompt p = pre ++ "<|assistant|>\n" := by
  constructor
  · rw [trainingRender, inference_prompt]
  · refine ⟨"<|system|>\n" ++ SYSTEM_PROMPT ++ "\n<|end|>\n<|user|>\n" ++ p ++
      "\n<|end|>\n", ?_⟩
    rw [inference_prompt]
    rw [show ("\n<|end|>\n<|assistant|>\n" : String) = "\n<|end|>\n" ++ "<|assistant|>\n"
      from rfl]
    simp [String.append_assoc]

/-- C4 counterexample: on an empty directory listing, `fine_tune` does not fail with a
"no training data" error before invoking the trainer; it loads zero examples, invokes
the trainer on the empty dataset, saves, and reports completion with no error. -/
theorem c4_counterexample_no_zero_check :
    fine_tune [] false (.ok ()) (.ok ()) =
      ([.loadedExamples 0, .trainerRun 0, .modelSaved, .completionReported], none) := rfl

/-- C4 (amended): for an empty data directory `load_training_data` returns an empty
sequence, and `fine_tune` performs no zero-example check: for every export flag and
collaborator outcome it invokes the opaque trainer on the zero-example dataset instead
of failing first. -/
theorem c4_empty_dir_trainer_invoked :
    load_training_data [] = .ok [] ∧
    ∀ (ef : Bool) (tr ex : Except String Unit),
      Event.trainerRun 0 ∈ (fine_tune [] ef tr ex).1 := by
  refine ⟨rfl, ?_⟩
  intro ef tr ex
  cases tr with
  | error e =>
    show Event.trainerRun 0 ∈ [Event.loadedExamples 0, Event.trainerRun 0]
    simp
  | ok u =>
    obtain ⟨⟩ := u
    show Event.trainerRun 0 ∈
      [Event.loadedExamples 0, Event.trainerRun 0, Event.modelSaved] ++
        (if ef then [export_gguf ex] else []) ++ [Event.completionReported]
    simp

/-- C5: when the quantized-export collaborator raises, `export_gguf` catches it and
produces a log naming the underlying error, and the run continues non-fatally:
`fine_tune` still reaches its completion report and the model-saved event recorded
before the export attempt stays in the run's event sequence, with no run error. -/
theorem c5_export_failure_nonfatal (listing : List (String × List String)) (e : String)
    (exs : List Json) (fs : List String)
    (hload : load_training_data listing = .ok exs)
    (hfmt : exs.mapM format_for_training = .ok fs) :
    export_gguf (.error e) = .exportFailedLogged ("GGUF export failed: " ++ e) ∧
    hasInfix e.data ("GGUF export failed: " ++ e).data = true ∧
    fine_tune listing true (.ok ()) (.error e) =
      ([.loadedExamples exs.length, .trainerRun fs.length, .modelSaved,
        .exportFailedLogged ("GGUF export failed: " ++ e), .completionReported], none) := by
  refine ⟨rfl, ?_, ?_⟩
  · apply (hasInfix_iff _ _).2
    exact ⟨"GGUF export failed: ".data, [], by simp [String.data_append]⟩
  · rw [fine_tune, hload]
    show (match exs.mapM format_for_training with
      | .error e2 => ([Event.loadedExamples exs.length], some (RunError.format e2))
      | .ok formatted =>
        match (Except.ok () : Except String Unit) with
        | .error e2 =>
          ([Event.loadedExamples exs.length, Event.trainerRun formatted.length],
            some (RunError.training e2))
        | .ok _ =>
          ([Event.loadedExamples exs.length, Event.trainerRun formatted.length,
              Event.modelSaved] ++
            (if true then [export_gguf (.error e)] else []) ++ [Event.completionReported],
            none)) = _
    rw [hfmt]
    rfl

theorem c5_export_failure_nonfatal_witness :
    export_gguf (.error "boom") = .exportFailedLogged ("GGUF export failed: " ++ "boom") ∧
    hasInfix "boom".data ("GGUF export failed: " ++ "boom").data = true ∧
    fine_tune [] true (.ok ()) (.error "boom") =
      ([.loadedExamples 0, .trainerRun 0, .modelSaved,
        .exportFailedLogged ("GGUF export failed: " ++ "boom"),
        .completionReported], none) := by
  have h := c5_export_failure_nonfatal [] "boom" [] [] rfl rfl
  simpa using h

theorem loadFiles_skip : ∀ fs : List (String × List String),
    loadFiles fs = loadFiles (fs.filter fun f => !(hasInfix "validation".data f.1.data)) := by
  intro fs
  induction fs with
  | nil => rfl
  | cons e rest ih =>
    obtain ⟨name, lines⟩ := e
    by_cases hv : hasInfix "validation".data name.data = true
    · have h1 : loadFiles ((name, lines) :: rest) = loadFiles rest := by
        rw [loadFiles.eq_def]
        simp [hv]
      rw [h1, List.filter_cons]
      simp only [hv]
      exact ih
    · have hv2 : hasInfix "validation".data name.data = false := by
        rw [Bool.eq_false_iff]
        exact hv
      rw [List.filter_cons]
      simp only [hv2, Bool.not_false, if_pos]
      rw [loadFiles.eq_def]
      conv =>
        rhs
        rw [loadFiles.eq_def]
      simp only [hv2, Bool.false_eq_true, if_false, ih]

theorem loadLines_error (name : String) : ∀ (lines : List String) (k : Nat) (f : String)
    (n : Nat), loadLines name k lines = .error ⟨f, n⟩ →
    f = name ∧ k ≤ n ∧ ∃ line, lines[n - k]? = some line ∧
      (pyStrip line.data).isEmpty = false ∧ parseJson line = none := by
  intro lines
  induction lines with
  | nil =>
    intro k f n h
    exact absurd h (by simp [loadLines])
  | cons line rest ih =>
    intro k f n h
    rw [loadLines.eq_def] at h
    by_cases hb : (pyStrip line.data).isEmpty = true
    · simp only [hb, if_pos] at h
      obtain ⟨hf, hk, l2, hl2, hprops⟩ := ih (k + 1) f n h
      refine ⟨hf, by omega, l2, ?_, hprops⟩
      have : n - k = (n - (k + 1)) + 1 := by omega
      rw [this]
      simpa using hl2
    · simp only [hb, Bool.false_eq_true, if_false] at h
      cases hp : parseJson line with
      | some j =>
        rw [hp] at h
        cases hrec : loadLines name (k + 1) rest with
        | ok more => rw [hrec] at h; exact absurd h (by simp)
        | error e2 =>
          rw [hrec] at h
          have he2 : e2 = ⟨f, n⟩ := by
            have h3 : (Except.error e2 : Except DataFormatError (List Json)) =
              Except.error ⟨f, n⟩ := h
            simpa using h3
          obtain ⟨hf, hk, l2, hl2, hprops⟩ := ih (k + 1) f n (he2 ▸ hrec)
          refine ⟨hf, by omega, l2, ?_, hprops⟩
          have : n - k = (n - (k + 1)) + 1 := by omega
          rw [this]
          simpa using hl2
      | none =>
        rw [hp] at h
        have : (⟨name, k⟩ : DataFormatError) = ⟨f, n⟩ := by
          have h2 : (Except.error ⟨name, k⟩ : Except DataFormatError (List Json)) =
            Except.error ⟨f, n⟩ := h
          simpa using h2
        obtain ⟨hf, hn⟩ := DataFormatError.mk.injEq .. ▸ this
        subst hf
        subst hn
        refine ⟨rfl, le_rfl, line, ?_, ?_, hp⟩
        · simp
        · rw [Bool.eq_false_iff]
          exact hb

theorem loadLines_bad (name : String) : ∀ (lines : List String) (k : Nat),
    (∃ line ∈ lines, (pyStrip line.data).isEmpty = false ∧ parseJson line = none) →
    ∃ e, loadLines name k lines = .error e := by
  intro lines
  induction lines with
  | nil =>
    intro k h
    obtain ⟨line, hmem, _⟩ := h
    cases hmem
  | cons line rest ih =>
    intro k h
    rw [loadLines.eq_def]
    by_cases hb : (pyStrip line.data).isEmpty = true
    · simp only [hb, if_pos]
      apply ih
      obtain ⟨l2, hmem, hprops⟩ := h
      rcases List.mem_cons.1 hmem with rfl | hm
      · rw [hprops.1] at hb
        cases hb
      · exact ⟨l2, hm, hprops⟩
    · simp only [hb, Bool.false_eq_true, if_false]
      cases hp : parseJson line with
      | none => exact ⟨⟨name, k⟩, rfl⟩
      | some j =>
        obtain ⟨l2, hmem, hprops⟩ := h
        rcases List.mem_cons.1 hmem with rfl | hm
        · rw [hprops.2] at hp
          cases hp
        · obtain ⟨e2, he2⟩ := ih (k + 1) ⟨l2, hm, hprops⟩
          rw [he2]
          exact ⟨e2, rfl⟩

theorem loadFiles_error : ∀ (fs : List (String × List String)) (f : String) (n : Nat),
    loadFiles fs = .error ⟨f, n⟩ →
    ∃ lines, (f, lines) ∈ fs ∧ hasInfix "validation".data f.data = false ∧
      ∃ line, lines[n - 1]? = some line ∧ (pyStrip line.data).isEmpty = false ∧
        parseJson line = none := by
  intro fs
  induction fs with
  | nil =>
    intro f n h
    exact absurd h (by simp [loadFiles])
  | cons e rest ih =>
    intro f n h
    obtain ⟨name, lines⟩ := e
    rw [loadFiles.eq_def] at h
    by_cases hv : hasInfix "validation".data name.data = true
    · simp only [hv, if_pos] at h
      obtain ⟨l2, hmem, hrest⟩ := ih f n h
      exact ⟨l2, List.mem_cons_of_mem _ hmem, hrest⟩
    · simp only [hv, Bool.false_eq_true, if_false] at h
      cases hl : loadLines name 1 lines with
      | error e2 =>
        rw [hl] at h
        have he2 : e2 = ⟨f, n⟩ := by simpa using h
        obtain ⟨hf, _, line, hline, hprops⟩ := loadLines_error name lines 1 f n (he2 ▸ hl)
        subst hf
        refine ⟨lines, List.mem_cons_self _ _, by rw [Bool.eq_false_iff]; exact hv,
          line, hline, hprops⟩
      | ok exs =>
        rw [hl] at h
        cases hrec : loadFiles rest with
        | ok more => rw [hrec] at h; exact absurd h (by simp)
        | error e2 =>
          rw [hrec] at h
          have he2 : e2 = ⟨f, n⟩ := by simpa using h
          obtain ⟨l2, hmem, hrest⟩ := ih f n (he2 ▸ hrec)
          exact ⟨l2, List.mem_cons_of_mem _ hmem, hrest⟩

theorem loadFiles_bad : ∀ fs : List (String × List String),
    (∃ e ∈ fs, hasInfix "validation".data e.1.data = false ∧
      ∃ line ∈ e.2, (pyStrip line.data).isEmpty = false ∧ parseJson line = none) →
    ∃ er, loadFiles fs = .error er := by
  intro fs
  induction fs with
  | nil =>
    intro h
    obtain ⟨e, hmem, _⟩ := h
    cases hmem
  | cons entry rest ih =>
    intro h
    obtain ⟨name, lines⟩ := entry
    rw [loadFiles.eq_def]
    by_cases hv : hasInfix "validation".data name.data = true
    · simp only [hv, if_pos]
      apply ih
      obtain ⟨e, hmem, hval, hbad⟩ := h
      rcases List.mem_cons.1 hmem with rfl | hm
      · rw [hval] at hv
        cases hv
      · exact ⟨e, hm, hval, hbad⟩
    · simp only [hv, Bool.false_eq_true, if_false]
      cases hl : loadLines name 1 lines with
      | error e2 => exact ⟨e2, rfl⟩
      | ok exs =>
        obtain ⟨e, hmem, hval, hbad⟩ := h
        rcases List.mem_cons.1 hmem with rfl | hm
        · obtain ⟨e3, he3⟩ := loadLines_bad name lines 1 hbad
          rw [he3] at hl
          cases hl
        · obtain ⟨er, her⟩ := ih ⟨e, hm, hval, hbad⟩
          rw [her]
          exact ⟨er, rfl⟩

/-- C2: `load_training_data` skips every discovered `.jsonl` file whose name contains the
validation marker substring — loading a listing equals loading the listing with all
validation-named files removed — and in particular a directory with `a.jsonl` and
`a_validation.jsonl` yields exactly the examples of `a.jsonl`. -/
theorem c2_validation_files_skipped :
    (∀ listing : List (String × List String),
      load_training_data listing =
        load_training_data
          (listing.filter fun f => !(hasInfix "validation".data f.1.data))) ∧
    load_training_data
      [("a.jsonl", ["\x7b\"prompt\":\"p\",\"output\":\x7b\x7d\x7d"]),
       ("a_validation.jsonl", ["\x7b\"prompt\":\"q\",\"output\":\x7b\x7d\x7d"])] =
      .ok [Json.obj [("prompt", Json.str "p"), ("output", Json.obj [])]] := by
  constructor
  · intro listing
    rw [load_training_data, load_training_data]
    rw [loadFiles_skip (listing.filter fun f => jsonlGlobMatch f.1)]
    congr 1
    rw [List.filter_comm]
  · rfl

/-- C3: whenever some included (glob-matched, non-validation) file has a non-blank line
that fails to parse, `load_training_data` fails the whole load with a
`DataFormatError` naming an actually-offending file and 1-based line number, and
returns no examples from any file. -/
theorem c3_parse_failure_aborts_load (listing : List (String × List String))
    (h : ∃ e ∈ listing, jsonlGlobMatch e.1 = true ∧
        hasInfix "validation".data e.1.data = false ∧
        ∃ line ∈ e.2, (pyStrip line.data).isEmpty = false ∧ parseJson line = none) :
    ∃ f n, load_training_data listing = .error ⟨f, n⟩ ∧
      ∃ lines line, (f, lines) ∈ listing ∧ hasInfix "validation".data f.data = false ∧
        lines[n - 1]? = some line ∧ (pyStrip line.data).isEmpty = false ∧
        parseJson line = none := by
  obtain ⟨e, hmem, hg, hval, hbad⟩ := h
  have hmemf : e ∈ listing.filter (fun f => jsonlGlobMatch f.1) :=
    List.mem_filter.2 ⟨hmem, hg⟩
  obtain ⟨er, her⟩ := loadFiles_bad _ ⟨e, hmemf, hval, hbad⟩
  obtain ⟨f, n⟩ := er
  refine ⟨f, n, by rw [load_training_data]; exact her, ?_⟩
  obtain ⟨lines, hmem2, hval2, line, hline, hprops⟩ := loadFiles_error _ f n her
  have hmem3 : (f, lines) ∈ listing := (List.mem_filter.1 hmem2).1
  exact ⟨lines, line, hmem3, hval2, hline, hprops.1, hprops.2⟩

theorem c3_parse_failure_aborts_load_witness :
    ∃ f n, load_training_data
        [("a.jsonl", ["\x7b\"prompt\":\"p\",\"output\":\x7b\x7d\x7d"]),
         ("b.jsonl", ["nope"])] = .error ⟨f, n⟩ ∧
      ∃ lines line,
        (f, lines) ∈ [("a.jsonl", ["\x7b\"prompt\":\"p\",\"output\":\x7b\x7d\x7d"]),
          ("b.jsonl", ["nope"])] ∧
        hasInfix "validation".data f.data = false ∧
        lines[n - 1]? = some line ∧ (pyStrip line.data).isEmpty = false ∧
        parseJson line = none := by
  apply c3_parse_failure_aborts_load
  refine ⟨("b.jsonl", ["nope"]), by simp, rfl, rfl, "nope", by simp, rfl, rfl⟩

/-- C9: for an input file `train.jsonl` holding the spec's single end-to-end example
line, `load_training_data` yields exactly one example, and `format_for_training` on it
renders a transcript whose assistant segment (between the role markers) contains the
literal substring `"type":"poll-element"`. -/
theorem c9_end_to_end_scenario :
    ∃ ex t seg, load_training_data [("train.jsonl", [c9Line])] = .ok [ex] ∧
      format_for_training ex = .ok t ∧
      extractAssistantSegment t = some seg ∧
      hasInfix "\"type\":\"poll-element\"".data seg.data = true := by
  refine ⟨Json.obj [("prompt", Json.str "create a poll about lunch"),
      ("output", c9Output)],
    trainingRender "create a poll about lunch" c9Output,
    String.mk ('\x0a' :: (serJson c9Output ++ ['\x0a'])), rfl, rfl,
    extract_trainingRender "create a poll about lunch" c9Output rfl, rfl⟩

/-- C10: `load_training_data` accepts any line that parses as valid JSON without
checking for the `prompt` and `output` fields; a record missing either field loads
successfully, and the failure surfaces only later as `format_for_training`'s key-lookup
error on that record. -/
theorem c10_missing_fields_load_then_fail (name line : String) (j : Json)
    (hg : jsonlGlobMatch name = true)
    (hv : hasInfix "validation".data name.data = false)
    (hb : (pyStrip line.data).isEmpty = false)
    (hp : parseJson line = some j) :
    load_training_data [(name, [line])] = .ok [j] ∧
    (∀ ms, j = Json.obj ms → lookupL ms "prompt" = none →
      format_for_training j = .error (.keyError "prompt")) ∧
    (∀ ms, j = Json.obj ms → lookupL ms "prompt" ≠ none → lookupL ms "output" = none →
      format_for_training j = .error (.keyError "output")) := by
  refine ⟨?_, ?_, ?_⟩
  · rw [load_training_data]
    rw [show ([(name, [line])].filter fun f => jsonlGlobMatch f.1) = [(name, [line])] by
      simp [hg]]
    rw [loadFiles.eq_def]
    simp only [hv, Bool.false_eq_true, if_false]
    rw [loadLines.eq_def]
    simp only [hb, Bool.false_eq_true, if_false, hp]
    rfl
  · intro ms hj hnone
    subst hj
    simp [format_for_training, hnone]
  · intro ms hj hsome hnone
    subst hj
    cases hl : lookupL ms "prompt" with
    | none => exact absurd hl hsome
    | some pv => simp [format_for_training, hl, hnone]

theorem c10_missing_fields_load_then_fail_witness :
    load_training_data [("a.jsonl", ["\x7b\"prompt\":\"x\"\x7d"])] =
      .ok [Json.obj [("prompt", Json.str "x")]] ∧
    format_for_training (Json.obj [("prompt", Json.str "x")]) =
      .error (.keyError "output") := by
  have h := c10_missing_fields_load_then_fail "a.jsonl" "\x7b\"prompt\":\"x\"\x7d"
    (Json.obj [("prompt", Json.str "x")]) rfl rfl rfl rfl
  exact ⟨h.1, h.2.2 _ rfl (by simp [lookupL]) rfl⟩

theorem reportFor_cases (r : String) (rep : PromptReport) (h : reportFor r = .ok rep) :
    (parseJson (extractResponse r) = none ∧ rep = .invalidJson) ∨
    (∃ v el n, parseJson (extractResponse r) = some v ∧
      dictGet v "elements" (Json.arr []) = .ok el ∧ pyLen el = .ok n ∧
      rep = .validJson n) := by
  simp only [reportFor] at h
  cases hp : parseJson (extractResponse r) with
  | none =>
    simp only [hp] at h
    exact Or.inl ⟨rfl, (Except.ok.inj h).symm⟩
  | some v =>
    simp only [hp] at h
    cases hd : dictGet v "elements" (Json.arr []) with
    | error e =>
      simp only [hd] at h
      exact absurd h (by simp)
    | ok el =>
      simp only [hd] at h
      cases hl : pyLen el with
      | error e =>
        simp only [hl] at h
        exact absurd h (by simp)
      | ok n =>
        simp only [hl] at h
        exact Or.inr ⟨v, el, n, rfl, hd, hl, (Except.ok.inj h).symm⟩

/-- C8: for every sequence of decoded generations whose per-prompt handling raises no
uncaught error, `test_inference` reports one outcome per prompt: the assistant
continuation is extracted after the last role marker, a JSON parse failure is reported
as invalid without stopping the loop over the remaining prompts, and a successful parse
is reported as valid together with the count of entries of the top-level `elements`
field. -/
theorem c8_smoke_test_reports_per_prompt (rs : List String)
    (h : ∀ r ∈ rs, ∃ rep, reportFor r = .ok rep) :
    ∃ reps, test_inference rs = .ok reps ∧ reps.length = rs.length ∧
      ∀ i (hi : i < rs.length), ∃ rep, reps[i]? = some rep ∧
        ((parseJson (extractResponse (rs.get ⟨i, hi⟩)) = none ∧ rep = .invalidJson) ∨
         (∃ v el n, parseJson (extractResponse (rs.get ⟨i, hi⟩)) = some v ∧
           dictGet v "elements" (Json.arr []) = .ok el ∧ pyLen el = .ok n ∧
           rep = .validJson n)) := by
  induction rs with
  | nil => exact ⟨[], rfl, rfl, fun i hi => absurd hi (by simp)⟩
  | cons r rest ih =>
    obtain ⟨rep, hrep⟩ := h r (List.mem_cons_self r rest)
    obtain ⟨reps, hmap, hlen, hidx⟩ := ih fun r2 hr2 => h r2 (List.mem_cons_of_mem r hr2)
    refine ⟨rep :: reps, ?_, by simp [hlen], ?_⟩
    · show (r :: rest).mapM reportFor = .ok (rep :: reps)
      rw [List.mapM_cons]
      show (reportFor r >>= fun b => rest.mapM reportFor >>= fun bs => pure (b :: bs)) =
        .ok (rep :: reps)
      rw [hrep]
      show (rest.mapM reportFor >>= fun bs => pure (rep :: bs)) = .ok (rep :: reps)
      rw [show rest.mapM reportFor = test_inference rest from rfl, hmap]
      rfl
    · intro i hi
      cases i with
      | zero =>
        refine ⟨rep, by simp, ?_⟩
        exact reportFor_cases r rep hrep
      | succ j =>
        have hj : j < rest.length := by simpa using hi
        obtain ⟨rep2, hrep2, hcases⟩ := hidx j hj
        refine ⟨rep2, by simpa using hrep2, hcases⟩

theorem c8_smoke_test_reports_per_prompt_witness :
    ∃ reps, test_inference
        ["junk", "x<|assistant|> \x7b\"elements\":[\x7b\x7d,\x7b\x7d]\x7d"] = .ok reps ∧
      reps.length =
        (["junk", "x<|assistant|> \x7b\"elements\":[\x7b\x7d,\x7b\x7d]\x7d"] :
          List String).length ∧
      ∀ i (hi : i <
          (["junk", "x<|assistant|> \x7b\"elements\":[\x7b\x7d,\x7b\x7d]\x7d"] :
            List String).length),
        ∃ rep, reps[i]? = some rep ∧
        ((parseJson (extractResponse
            ((["junk", "x<|assistant|> \x7b\"elements\":[\x7b\x7d,\x7b\x7d]\x7d"] :
              List String).get ⟨i, hi⟩)) = none ∧ rep = .invalidJson) ∨
         (∃ v el n, parseJson (extractResponse
            ((["junk", "x<|assistant|> \x7b\"elements\":[\x7b\x7d,\x7b\x7d]\x7d"] :
              List String).get ⟨i, hi⟩)) = some v ∧
           dictGet v "elements" (Json.arr []) = .ok el ∧ pyLen el = .ok n ∧
           rep = .validJson n)) := by
  apply c8_smoke_test_reports_per_prompt
  intro r hr
  rcases List.mem_cons.1 hr with rfl | hr2
  · exact ⟨.invalidJson, rfl⟩
  · rcases List.mem_cons.1 hr2 with rfl | hr3
    · exact ⟨.validJson 2, rfl⟩
    · cases hr3

/-- C1 counterexample to the claim as stated: for the valid structured output
`\x7b"a":"<|assistant|>"\x7d`, whose serialization contains the assistant role marker,
re-extracting the assistant segment of the rendered training text (text after the last
assistant role marker, up to the final end-of-turn marker) yields `"\x7d` followed by a
newline, which does not parse back to the original output — it is not valid JSON at
all. -/
theorem c1_counterexample_marker_injection :
    format_for_training (Json.obj [("prompt", Json.str "create a tool"),
        ("output", Json.obj [("a", Json.str "<|assistant|>")])]) =
      .ok (trainingRender "create a tool" (Json.obj [("a", Json.str "<|assistant|>")])) ∧
    extractAssistantSegment (trainingRender "create a tool"
        (Json.obj [("a", Json.str "<|assistant|>")])) = some "\"\x7d\n" ∧
    parseJson "\"\x7d\n" = none :=
  ⟨rfl, rfl, rfl⟩

/-- C1 (amended): for every training example whose output is a valid structured value
and whose compact serialization does not contain the assistant role marker substring,
serializing the output, embedding it in the three-segment training template via
`format_for_training`, and re-extracting the assistant segment (the text between the
last assistant role marker and the final end-of-turn marker) yields a string that
parses back to a value equal to the original output. -/
theorem c1_round_trip (p : String) (o : Json)
    (hm : hasInfix "<|assistant|>".data (serJson o) = false) :
    ∃ t seg, format_for_training (Json.obj [("prompt", Json.str p), ("output", o)]) =
        .ok t ∧
      extractAssistantSegment t = some seg ∧ parseJson seg = some o := by
  refine ⟨trainingRender p o, String.mk ('\x0a' :: (serJson o ++ ['\x0a'])), rfl,
    extract_trainingRender p o hm, parseJson_wsWrap o⟩

theorem c1_round_trip_witness :
    hasInfix "<|assistant|>".data (serJson (Json.obj [("elements", Json.arr [])])) =
      false ∧
    (∃ t seg, format_for_training (Json.obj [("prompt", Json.str "make a poll"),
        ("output", Json.obj [("elements", Json.arr [])])]) = .ok t ∧
      extractAssistantSegment t = some seg ∧
      parseJson seg = some (Json.obj [("elements", Json.arr [])])) :=
  ⟨rfl, c1_round_trip "make a poll" (Json.obj [("elements", Json.arr [])]) rfl⟩
